import Mathlib

/-!
# Verification of the `pack` subsystem of `deno_emit`

This file is a shallow embedding, in Lean 4, of the module packer in
`rs-lib/src/pack/mod.rs`, together with theorems settling the claims about
its specification.

Modelling conventions:

* `ModuleSpecifier` (a URL, compared by value) is modelled as a structure
  holding the scheme and the full specifier string.
* The Rust `HashMap<ModuleSpecifier, ModuleData>` of `ModuleDataCollection`
  is modelled as an association list kept in insertion order; `get_mut`
  assigns `id = map.len()` on first insertion, exactly as the source does.
  The source never iterates this map, so lookup semantics suffice.
* Byte indices into module source text are modelled as indices into a
  `List Char`; all concrete inputs used in this development are ASCII, where
  the two coincide.
* Rust panics (`assert_eq!`, `todo!`, `unreachable!`, `unwrap` on `None`)
  are modelled as `Except.error`.
* The recursive export-name resolution of
  `ModuleDataCollection::get_export_names` terminates in Rust because the
  `seen` set grows on every recursive descent; the embedding makes the same
  recursion structurally total with a fuel argument instantiated at
  `collection.length + 1`, and a theorem below proves this fuel is never
  exhausted (the result is stable for any larger fuel).
-/

/-- A module specifier: canonical URL-like identity, compared by value.
`scheme` is the URL scheme (the source calls `specifier.scheme()`), and
`str` the full specifier text (`specifier.as_str()`). -/
structure Specifier where
  scheme : String
  str : String
deriving DecidableEq, Repr

/-- `deno_ast::TextChange`: a half-open byte range `[start, stop)` over the
original source text, plus replacement text. -/
structure TextChangeE where
  start : Nat
  stop : Nat
  newText : List Char
deriving DecidableEq, Repr

/-- `ExportName`: a `(local_name, optional export_name)` pair. -/
structure ExportNameE where
  localName : String
  exportNameOpt : Option String
deriving DecidableEq, Repr

/-- `ExportName::export_name()`: the export name defaults to the local
name when absent. -/
def ExportNameE.exportName (e : ExportNameE) : String :=
  e.exportNameOpt.getD e.localName

/-- `ReExportName`: tag of a re-export entry. -/
inductive ReExportNameE where
  | named (name : ExportNameE)
  | nsName (name : String)
  | all
deriving DecidableEq, Repr

/-- `ReExport`: a re-export referencing a dependency module. -/
structure ReExportE where
  name : ReExportNameE
  specifier : Specifier
  moduleId : Nat
deriving DecidableEq, Repr

/-- `ModuleData`: per-module record accumulated during analysis. -/
structure ModuleDataE where
  id : Nat
  hasTla : Bool
  exports : List ExportNameE
  reExports : List ReExportE
  textChanges : List TextChangeE
  requiresTranspile : Bool
deriving DecidableEq, Repr

/-- The fresh `ModuleData` created by `ModuleDataCollection::get_mut` on
first lookup of a specifier (`or_insert_with` closure). -/
def ModuleDataE.fresh (id : Nat) : ModuleDataE :=
  { id := id, hasTla := false, exports := [], reExports := [],
    textChanges := [], requiresTranspile := false }

/-- `ModuleId::to_code_string()`: the synthetic binding name `pack<N>`. -/
def toCodeString (id : Nat) : String :=
  "pack" ++ toString id

/-- `ModuleDataCollection`: the module registry, a map from specifier to
`ModuleData`. Modelled as an association list in insertion order. -/
abbrev MDC := List (Specifier × ModuleDataE)

/-- Empty registry (`ModuleDataCollection::default()`). -/
def MDC.empty : MDC := []

/-- `ModuleDataCollection::get`: non-creating lookup. -/
def MDC.find? (c : MDC) (s : Specifier) : Option ModuleDataE :=
  match c with
  | [] => none
  | (k, v) :: rest => if k = s then some v else MDC.find? rest s

/-- `ModuleDataCollection::get_mut`: returns the existing record's id, or
inserts a fresh record with `id = map.len()` (the source computes
`next_id = module_data.len()` and then `entry(..).or_insert_with(..)`). -/
def MDC.getMutId (c : MDC) (s : Specifier) : Nat × MDC :=
  match c.find? s with
  | some md => (md.id, c)
  | none => (c.length, c ++ [(s, ModuleDataE.fresh c.length)])

/-- Mutation through `get_mut`: ensure the record exists (assigning the next
id if absent) then update it in place. -/
def MDC.modify (c : MDC) (s : Specifier) (f : ModuleDataE → ModuleDataE) : MDC :=
  let c' := (MDC.getMutId c s).2
  c'.map (fun kv => if kv.1 = s then (kv.1, f kv.2) else kv)

/-- Registering a sequence of specifiers through `get_mut` in first-touch
order, starting from the empty registry: this is how every collection of a
packing run arises. -/
def MDC.registerAll (l : List Specifier) : MDC :=
  l.foldl (fun c s => (MDC.getMutId c s).2) MDC.empty

/-- The id `get_mut` yields for `s` in collection `c` (without mutating). -/
def MDC.idOf (c : MDC) (s : Specifier) : Option Nat :=
  (c.find? s).map ModuleDataE.id

-- Basic lemmas about the registry ------------------------------------------

theorem MDC.find?_append_left {c₁ c₂ : MDC} {s : Specifier}
    (h : MDC.find? c₁ s ≠ none) :
    MDC.find? (c₁ ++ c₂) s = MDC.find? c₁ s := by
  induction c₁ with
  | nil => simp [MDC.find?] at h
  | cons kv rest ih =>
    by_cases hk : kv.1 = s
    · simp [MDC.find?, hk]
    · simp only [MDC.find?, hk, if_false, List.cons_append] at h ⊢
      exact ih h

theorem MDC.find?_append_right {c₁ c₂ : MDC} {s : Specifier}
    (h : MDC.find? c₁ s = none) :
    MDC.find? (c₁ ++ c₂) s = MDC.find? c₂ s := by
  induction c₁ with
  | nil => simp
  | cons kv rest ih =>
    by_cases hk : kv.1 = s
    · simp [MDC.find?, hk] at h
    · simp only [MDC.find?, hk, if_false] at h
      simpa [MDC.find?, hk] using ih h

theorem MDC.find?_singleton {s t : Specifier} {md : ModuleDataE} :
    MDC.find? [(t, md)] s = if t = s then some md else none := by
  simp [MDC.find?]

/-- Well-formedness of a registry: the id stored at list position `i` is
`i` itself.  This is exactly the state of affairs `get_mut` maintains by
assigning `id = map.len()` at insertion time. -/
def MDC.WF (c : MDC) : Prop :=
  ∀ i : Nat, ∀ h : i < c.length, (c.get ⟨i, h⟩).2.id = i

theorem MDC.wf_empty : MDC.WF MDC.empty := by
  intro i h
  simp [MDC.empty] at h

theorem MDC.wf_getMut {c : MDC} (hc : MDC.WF c) (s : Specifier) :
    MDC.WF (MDC.getMutId c s).2 := by
  unfold MDC.getMutId
  cases hf : c.find? s with
  | some md => exact hc
  | none =>
    intro i h
    rcases Nat.lt_or_ge i c.length with hi | hi
    · rw [List.get_append _ hi]
      exact hc i hi
    · have hlen : i < c.length + 1 := by simpa using h
      have : i = c.length := Nat.le_antisymm (Nat.lt_succ_iff.mp hlen) hi
      subst this
      simp [List.get_append_right, ModuleDataE.fresh]

/-- If a specifier is present, its id is its list position. -/
theorem MDC.find?_mem_position {c : MDC} {s : Specifier} {md : ModuleDataE}
    (h : MDC.find? c s = some md) :
    ∃ i : Nat, ∃ hi : i < c.length, c.get ⟨i, hi⟩ = (s, md) ∧
      (∀ j : Nat, ∀ hj : j < c.length, j < i → (c.get ⟨j, hj⟩).1 ≠ s) := by
  induction c with
  | nil => simp [MDC.find?] at h
  | cons kv rest ih =>
    by_cases hk : kv.1 = s
    · simp only [MDC.find?, hk, if_true, Option.some.injEq] at h
      refine ⟨0, by simp, ?_, ?_⟩
      · cases kv; simp_all
      · intro j hj hj0; omega
    · simp only [MDC.find?, hk, if_false] at h
      obtain ⟨i, hi, hget, hmin⟩ := ih h
      refine ⟨i + 1, by simpa using Nat.succ_lt_succ hi, by simpa using hget, ?_⟩
      intro j hj hji
      cases j with
      | zero => simpa using hk
      | succ j' =>
        have hj' : j' < rest.length := by simpa using hj
        simpa using hmin j' hj' (Nat.lt_of_succ_lt_succ hji)

/-- In a well-formed registry the id of a present specifier determines its
position, so two distinct present specifiers have distinct ids. -/
theorem MDC.wf_inj {c : MDC} (hc : MDC.WF c) {s₁ s₂ : Specifier}
    {m₁ m₂ : ModuleDataE}
    (h₁ : MDC.find? c s₁ = some m₁) (h₂ : MDC.find? c s₂ = some m₂)
    (hne : s₁ ≠ s₂) : m₁.id ≠ m₂.id := by
  obtain ⟨i₁, hi₁, hg₁, -⟩ := MDC.find?_mem_position h₁
  obtain ⟨i₂, hi₂, hg₂, -⟩ := MDC.find?_mem_position h₂
  have e₁ : m₁.id = i₁ := by
    have := hc i₁ hi₁; rw [hg₁] at this; exact this
  have e₂ : m₂.id = i₂ := by
    have := hc i₂ hi₂; rw [hg₂] at this; exact this
  intro hid
  apply hne
  have : i₁ = i₂ := by omega
  have : c.get ⟨i₁, hi₁⟩ = c.get ⟨i₂, hi₂⟩ := by congr 1; exact Fin.ext this
  rw [hg₁, hg₂] at this
  exact congrArg Prod.fst this

-- First-touch order --------------------------------------------------------

/-- The keys of the registry in insertion order. -/
def MDC.keys (c : MDC) : List Specifier := c.map Prod.fst

/-- Index of the first occurrence of `s` in a list. -/
def firstIdx : List Specifier → Specifier → Option Nat
  | [], _ => none
  | t :: rest, s => if t = s then some 0 else (firstIdx rest s).map (· + 1)

/-- The subsequence of first occurrences of `l` that are not already in
`ks`: the order in which a run starting with keys `ks` first touches the
specifiers of `l`. -/
def firstTouchFrom (ks : List Specifier) : List Specifier → List Specifier
  | [] => []
  | s :: rest =>
    if s ∈ ks then firstTouchFrom ks rest
    else s :: firstTouchFrom (ks ++ [s]) rest

/-- First-touch order of a run: each specifier once, at its first occurrence. -/
def firstTouch (l : List Specifier) : List Specifier := firstTouchFrom [] l

theorem MDC.find?_eq_none_iff {c : MDC} {s : Specifier} :
    MDC.find? c s = none ↔ s ∉ MDC.keys c := by
  induction c with
  | nil => simp [MDC.find?, MDC.keys]
  | cons kv rest ih =>
    by_cases hk : kv.1 = s
    · simp [MDC.find?, MDC.keys, hk]
    · simp [MDC.find?, MDC.keys, hk, ih, Ne.symm hk]

theorem MDC.keys_getMut (c : MDC) (s : Specifier) :
    MDC.keys (MDC.getMutId c s).2 =
      if s ∈ MDC.keys c then MDC.keys c else MDC.keys c ++ [s] := by
  unfold MDC.getMutId
  cases hf : c.find? s with
  | some md =>
    have : s ∈ MDC.keys c := by
      by_contra h
      rw [← MDC.find?_eq_none_iff] at h
      simp [h] at hf
    simp [this]
  | none =>
    have hm : s ∉ MDC.keys c := MDC.find?_eq_none_iff.mp hf
    rw [if_neg hm]
    simp [MDC.keys]

/-- Registration of further specifiers never changes an existing record. -/
theorem MDC.find?_foldl_stable {l : List Specifier} {c : MDC} {s : Specifier}
    {md : ModuleDataE} (h : MDC.find? c s = some md) :
    MDC.find? (l.foldl (fun c s => (MDC.getMutId c s).2) c) s = some md := by
  induction l generalizing c with
  | nil => simpa
  | cons t rest ih =>
    simp only [List.foldl_cons]
    apply ih
    unfold MDC.getMutId
    cases hf : c.find? t with
    | some md' => simpa using h
    | none =>
      rw [MDC.find?_append_left]
      · exact h
      · simp [h]

/-- Central characterization: folding `get_mut` over a run assigns, to a
specifier not yet registered, the id `c.length + (rank of its first touch)`,
and leaves already-registered ids unchanged. -/
theorem MDC.idOf_foldl (l : List Specifier) (c : MDC) (s : Specifier) :
    (∀ md, MDC.find? c s = some md →
      MDC.idOf (l.foldl (fun c s => (MDC.getMutId c s).2) c) s = some md.id) ∧
    (MDC.find? c s = none →
      MDC.idOf (l.foldl (fun c s => (MDC.getMutId c s).2) c) s =
        (firstIdx (firstTouchFrom (MDC.keys c) l) s).map (· + c.length)) := by
  induction l generalizing c with
  | nil =>
    constructor
    · intro md h; simp [MDC.idOf, h]
    · intro h; simp [MDC.idOf, h, firstTouchFrom, firstIdx]
  | cons t rest ih =>
    constructor
    · intro md h
      simp only [List.foldl_cons]
      exact ((ih _).1) md (by
        unfold MDC.getMutId
        cases hf : c.find? t with
        | some md' => simpa using h
        | none => rw [MDC.find?_append_left] <;> simp [h])
    · intro h
      simp only [List.foldl_cons]
      cases hf : c.find? t with
      | some md' =>
        have hmem : t ∈ MDC.keys c := by
          by_contra hm
          rw [← MDC.find?_eq_none_iff] at hm
          simp [hm] at hf
        have hstep : (MDC.getMutId c t).2 = c := by
          unfold MDC.getMutId; simp [hf]
        rw [hstep]
        have h2 := (ih c).2 h
        rw [h2]
        have hft : firstTouchFrom (MDC.keys c) (t :: rest) =
            firstTouchFrom (MDC.keys c) rest := by
          simp [firstTouchFrom, hmem]
        rw [hft]
      | none =>
        have hmem : t ∉ MDC.keys c := MDC.find?_eq_none_iff.mp hf
        have hstep : (MDC.getMutId c t).2 = c ++ [(t, ModuleDataE.fresh c.length)] := by
          unfold MDC.getMutId; simp [hf]
        rw [hstep]
        by_cases hst : t = s
        · subst hst
          have hfind : MDC.find? (c ++ [(t, ModuleDataE.fresh c.length)]) t =
              some (ModuleDataE.fresh c.length) := by
            rw [MDC.find?_append_right hf, MDC.find?_singleton]
            simp
          have := ((ih _).1) (ModuleDataE.fresh c.length) hfind
          rw [this]
          simp [firstTouchFrom, hmem, firstIdx, ModuleDataE.fresh]
        · have hfind : MDC.find? (c ++ [(t, ModuleDataE.fresh c.length)]) s = none := by
            rw [MDC.find?_append_right h, MDC.find?_singleton]
            simp [hst]
          have h2 := ((ih _).2) hfind
          have hkeys : MDC.keys (c ++ [(t, ModuleDataE.fresh c.length)]) =
              MDC.keys c ++ [t] := by simp [MDC.keys]
          rw [hkeys] at h2
          rw [h2]
          have hft : firstTouchFrom (MDC.keys c) (t :: rest) =
              t :: firstTouchFrom (MDC.keys c ++ [t]) rest := by
            simp [firstTouchFrom, hmem]
          rw [hft]
          have hfi : firstIdx (t :: firstTouchFrom (MDC.keys c ++ [t]) rest) s =
              (firstIdx (firstTouchFrom (MDC.keys c ++ [t]) rest) s).map (· + 1) := by
            simp [firstIdx, hst]
          rw [hfi]
          cases firstIdx (firstTouchFrom (MDC.keys c ++ [t]) rest) s with
          | none => simp
          | some i => simp; omega

/-- `idOf` after a full run from the empty registry is the rank in
first-touch order. -/
theorem MDC.idOf_registerAll (l : List Specifier) (s : Specifier) :
    MDC.idOf (MDC.registerAll l) s = firstIdx (firstTouch l) s := by
  have := (MDC.idOf_foldl l MDC.empty s).2 (by simp [MDC.find?, MDC.empty])
  simp only [MDC.registerAll]
  rw [this]
  simp [MDC.empty, MDC.keys, firstTouch]

theorem firstIdx_get {ks : List Specifier} {s : Specifier} {i : Nat} :
    firstIdx ks s = some i → ∃ h : i < ks.length, ks.get ⟨i, h⟩ = s := by
  induction ks generalizing i with
  | nil => simp [firstIdx]
  | cons t rest ih =>
    by_cases ht : t = s
    · simp only [firstIdx, ht, if_true, Option.some.injEq]
      rintro rfl
      exact ⟨by simp, by simpa using ht⟩
    · simp only [firstIdx, ht, if_false, Option.map_eq_some']
      rintro ⟨j, hj, rfl⟩
      obtain ⟨h, hg⟩ := ih hj
      exact ⟨by simpa using Nat.succ_lt_succ h, by simpa using hg⟩

theorem firstIdx_inj {ks : List Specifier} {s₁ s₂ : Specifier} {i : Nat}
    (h₁ : firstIdx ks s₁ = some i) (h₂ : firstIdx ks s₂ = some i) : s₁ = s₂ := by
  obtain ⟨hi₁, hg₁⟩ := firstIdx_get h₁
  obtain ⟨hi₂, hg₂⟩ := firstIdx_get h₂
  rw [← hg₁, ← hg₂]

theorem firstIdx_isSome_of_mem {ks : List Specifier} {s : Specifier}
    (h : s ∈ ks) : ∃ i, firstIdx ks s = some i := by
  induction ks with
  | nil => simp at h
  | cons t rest ih =>
    by_cases ht : t = s
    · exact ⟨0, by simp [firstIdx, ht]⟩
    · have : s ∈ rest := by
        rcases List.mem_cons.mp h with h' | h'
        · exact absurd h'.symm ht
        · exact h'
      obtain ⟨i, hi⟩ := ih this
      exact ⟨i + 1, by simp [firstIdx, ht, hi]⟩

theorem mem_firstTouchFrom {ks : List Specifier} {l : List Specifier}
    {s : Specifier} (hl : s ∈ l) (hk : s ∉ ks) : s ∈ firstTouchFrom ks l := by
  induction l generalizing ks with
  | nil => simp at hl
  | cons t rest ih =>
    by_cases htk : t ∈ ks
    · simp only [firstTouchFrom, htk, if_true]
      rcases List.mem_cons.mp hl with rfl | h'
      · exact absurd htk hk
      · exact ih h' hk
    · simp only [firstTouchFrom, htk, if_false]
      by_cases hts : t = s
      · simp [hts]
      · rcases List.mem_cons.mp hl with rfl | h'
        · simp
        · exact List.mem_cons_of_mem _ (ih h' (by simp [hk, Ne.symm hts]))

-- C7 ------------------------------------------------------------------------

/-- Re-querying the same specifier through `get_mut` returns the same id and
leaves the registry unchanged. -/
theorem MDC.getMutId_stable (c : MDC) (s : Specifier) :
    MDC.getMutId ((MDC.getMutId c s).2) s = MDC.getMutId c s := by
  cases hf : c.find? s with
  | some md =>
    have h2 : (MDC.getMutId c s).2 = c := by unfold MDC.getMutId; rw [hf]
    rw [h2]
  | none =>
    have h2 : (MDC.getMutId c s).2 = c ++ [(s, ModuleDataE.fresh c.length)] := by
      unfold MDC.getMutId; rw [hf]
    have hfind : MDC.find? (c ++ [(s, ModuleDataE.fresh c.length)]) s =
        some (ModuleDataE.fresh c.length) := by
      rw [MDC.find?_append_right hf, MDC.find?_singleton]; simp
    rw [h2]
    unfold MDC.getMutId
    rw [hfind, hf]
    simp [ModuleDataE.fresh]

/-- C7: Within one packing run (any sequence `l` of `get_mut` touches from
the empty registry), module-identity assignment is injective and stable:
re-querying a specifier returns the same `ModuleId` and leaves the registry
unchanged; the id assigned to a registered specifier is exactly its rank in
first-touch order (hence ids are monotonically increasing in first-touch
order); and distinct registered specifiers receive distinct ids. -/
theorem c7_module_identity (l : List Specifier) (c : MDC) (s s₁ s₂ : Specifier) :
    (MDC.getMutId ((MDC.getMutId c s).2) s).1 = (MDC.getMutId c s).1 ∧
    (MDC.getMutId ((MDC.getMutId c s).2) s).2 = (MDC.getMutId c s).2 ∧
    MDC.idOf (MDC.registerAll l) s = firstIdx (firstTouch l) s ∧
    (s₁ ∈ l → s₂ ∈ l → s₁ ≠ s₂ →
      MDC.idOf (MDC.registerAll l) s₁ ≠ MDC.idOf (MDC.registerAll l) s₂) := by
  refine ⟨?_, ?_, MDC.idOf_registerAll l s, ?_⟩
  · rw [MDC.getMutId_stable]
  · rw [MDC.getMutId_stable]
  · intro h₁ h₂ hne
    rw [MDC.idOf_registerAll, MDC.idOf_registerAll]
    obtain ⟨i₁, hi₁⟩ := firstIdx_isSome_of_mem
      (@mem_firstTouchFrom [] _ _ h₁ (by simp))
    obtain ⟨i₂, hi₂⟩ := firstIdx_isSome_of_mem
      (@mem_firstTouchFrom [] _ _ h₂ (by simp))
    rw [firstTouch, hi₁, hi₂]
    intro hEq
    apply hne
    apply firstIdx_inj hi₁
    rw [hi₂]
    simpa using hEq.symm

/-- Witness for C7 at a concrete run: the run `[a, b, a]` assigns id 0 to
`a`, id 1 to `b`, re-touching `a` is stable, and the ids differ. -/
theorem c7_module_identity_witness :
    let a : Specifier := ⟨"file", "file:///a.ts"⟩
    let b : Specifier := ⟨"file", "file:///b.ts"⟩
    MDC.idOf (MDC.registerAll [a, b, a]) a = some 0 ∧
    MDC.idOf (MDC.registerAll [a, b, a]) b = some 1 ∧
    MDC.idOf (MDC.registerAll [a, b, a]) a ≠ MDC.idOf (MDC.registerAll [a, b, a]) b := by
  intro a b
  refine ⟨?_, ?_, ?_⟩
  · rw [(c7_module_identity [a, b, a] [] a a b).2.2.1]; decide
  · rw [(c7_module_identity [a, b, a] [] b a b).2.2.1]; decide
  · exact (c7_module_identity [a, b, a] [] a a b).2.2.2 (by decide) (by decide)
      (by decide)

-- get_export_names ----------------------------------------------------------

/-- The export names a module contributes directly in
`get_export_names::inner`: its own `exports` (via `export_name()`), plus the
`Named` and `Namespace` re-export names.  (`All` re-exports contribute by
recursion instead.)  The source inserts these into a `HashSet` interleaved
with the recursion; only the resulting set is observable (it is deduplicated
and sorted before being returned), so the embedding collects the direct
names first. -/
def directNames (md : ModuleDataE) : List String :=
  md.exports.map ExportNameE.exportName ++
    md.reExports.filterMap (fun re =>
      match re.name with
      | .named n => some n.exportName
      | .nsName ns => some ns
      | .all => none)

/-- The specifiers of the `All` re-exports of a module, in order: the
recursion targets of `get_export_names::inner`. -/
def allTargets (md : ModuleDataE) : List Specifier :=
  md.reExports.filterMap (fun re =>
    match re.name with
    | .all => some re.specifier
    | _ => none)

/-- The loop over the `All` re-export targets of one module, threading the
`seen` set from call to call exactly as the single mutable `HashSet` does in
the source; `f` is the recursive visit of one target. -/
def gatherAllF (f : Specifier → List Specifier → List Specifier × List String) :
    List Specifier → List Specifier → List Specifier × List String
  | [], seen => (seen, [])
  | t :: ts, seen =>
    let r₁ := f t seen
    let r₂ := gatherAllF f ts r₁.1
    (r₂.1, r₁.2 ++ r₂.2)

/-- `get_export_names::inner`: if `seen.insert(specifier)` succeeds and the
specifier is registered, collect the module's direct names and recurse into
each `All` re-export target, threading the `seen` set.  The Rust recursion
terminates because `seen` grows on every descent; the embedding carries a
fuel argument, shown below never to be exhausted when
`fuel > availCount c seen`. -/
def gatherSpec (c : MDC) : Nat → Specifier → List Specifier →
    List Specifier × List String
  | 0, _, seen => (seen, [])
  | fuel + 1, s, seen =>
    if s ∈ seen then (seen, [])
    else
      match MDC.find? c s with
      | none => (s :: seen, [])
      | some md =>
        let r := gatherAllF (gatherSpec c fuel) (allTargets md) (s :: seen)
        (r.1, directNames md ++ r.2)

/-- The target loop instantiated with the fueled visit. -/
def gatherAll (c : MDC) (fuel : Nat) : List Specifier → List Specifier →
    List Specifier × List String :=
  gatherAllF (gatherSpec c fuel)

/-- Lexicographic comparison of character sequences by code point: the
order `Vec::sort_unstable` uses on Rust `String`s (byte-lexicographic,
which on code points agrees character-wise for these inputs). -/
def charsLe : List Char → List Char → Bool
  | [], _ => true
  | _ :: _, [] => false
  | a :: as, b :: bs =>
    if a.toNat < b.toNat then true
    else if b.toNat < a.toNat then false
    else charsLe as bs

/-- The sort relation on export names. -/
def strLeR (a b : String) : Prop := charsLe a.toList b.toList = true

instance : DecidableRel strLeR := fun a b => by
  unfold strLeR
  infer_instance

/-- `ModuleDataCollection::get_export_names`, parameterized by the order
`ord` in which the Rust `HashSet<&String>` result happens to be iterated
when collected into a `Vec` (an arbitrary permutation); the vector is then
`sort_unstable`d.  All Rust `HashSet`s here are otherwise used only for
membership, so this is the only place iteration order could enter. -/
def MDC.getExportNamesOrd (ord : List String → List String) (c : MDC)
    (s : Specifier) : List String :=
  List.insertionSort strLeR (ord ((gatherSpec c (c.length + 1) s []).2.dedup))

/-- `ModuleDataCollection::get_export_names`: dedup (HashSet), then sort. -/
def MDC.getExportNames (c : MDC) (s : Specifier) : List String :=
  MDC.getExportNamesOrd id c s

/-- The number of registered specifiers not yet in `seen`: the quantity that
bounds the depth of the `get_export_names` recursion. -/
def availCount (c : MDC) (seen : List Specifier) : Nat :=
  ((c.map Prod.fst).filter (fun k => decide (k ∉ seen))).length

-- Unfolding equations for the two gather functions --------------------------

theorem gatherSpec_zero (c : MDC) (s : Specifier) (seen : List Specifier) :
    gatherSpec c 0 s seen = (seen, []) := by
  simp [gatherSpec]

theorem gatherSpec_mem (c : MDC) (fuel : Nat) {s : Specifier}
    {seen : List Specifier} (hs : s ∈ seen) :
    gatherSpec c (fuel + 1) s seen = (seen, []) := by
  simp [gatherSpec, hs]

theorem gatherSpec_none (c : MDC) (fuel : Nat) {s : Specifier}
    {seen : List Specifier} (hs : s ∉ seen) (hf : MDC.find? c s = none) :
    gatherSpec c (fuel + 1) s seen = (s :: seen, []) := by
  simp [gatherSpec, hs, hf]

theorem gatherSpec_some (c : MDC) (fuel : Nat) {s : Specifier}
    {seen : List Specifier} {md : ModuleDataE} (hs : s ∉ seen)
    (hf : MDC.find? c s = some md) :
    gatherSpec c (fuel + 1) s seen =
      ((gatherAll c fuel (allTargets md) (s :: seen)).1,
       directNames md ++ (gatherAll c fuel (allTargets md) (s :: seen)).2) := by
  simp [gatherSpec, gatherAll, hs, hf]

theorem gatherAll_nil (c : MDC) (fuel : Nat) (seen : List Specifier) :
    gatherAll c fuel [] seen = (seen, []) := by
  simp [gatherAll, gatherAllF]

theorem gatherAll_cons (c : MDC) (fuel : Nat) (t : Specifier)
    (ts : List Specifier) (seen : List Specifier) :
    gatherAll c fuel (t :: ts) seen =
      ((gatherAll c fuel ts (gatherSpec c fuel t seen).1).1,
       (gatherSpec c fuel t seen).2 ++
         (gatherAll c fuel ts (gatherSpec c fuel t seen).1).2) := by
  simp [gatherAll, gatherAllF]

-- Seen-set monotonicity -----------------------------------------------------

theorem gatherAll_seen_ext_of (c : MDC) (fuel : Nat)
    (hspec : ∀ s seen, ∃ ext, (gatherSpec c fuel s seen).1 = ext ++ seen) :
    ∀ ts seen, ∃ ext, (gatherAll c fuel ts seen).1 = ext ++ seen := by
  intro ts
  induction ts with
  | nil => intro seen; exact ⟨[], by rw [gatherAll_nil]; rfl⟩
  | cons t ts ih =>
    intro seen
    obtain ⟨e₁, h₁⟩ := hspec t seen
    obtain ⟨e₂, h₂⟩ := ih (gatherSpec c fuel t seen).1
    refine ⟨e₂ ++ e₁, ?_⟩
    rw [gatherAll_cons]
    show (gatherAll c fuel ts (gatherSpec c fuel t seen).1).1 = e₂ ++ e₁ ++ seen
    rw [h₂, h₁, List.append_assoc]

theorem gatherSpec_seen_ext (c : MDC) :
    ∀ fuel, ∀ s seen, ∃ ext, (gatherSpec c fuel s seen).1 = ext ++ seen := by
  intro fuel
  induction fuel with
  | zero => intro s seen; exact ⟨[], by simp [gatherSpec]⟩
  | succ fuel ih =>
    intro s seen
    by_cases hs : s ∈ seen
    · exact ⟨[], by simp [gatherSpec, hs]⟩
    · cases hf : MDC.find? c s with
      | none => exact ⟨[s], by simp [gatherSpec, hs, hf]⟩
      | some md =>
        obtain ⟨ext, hext⟩ := gatherAll_seen_ext_of c fuel ih (allTargets md) (s :: seen)
        refine ⟨ext ++ [s], ?_⟩
        rw [gatherSpec_some c fuel hs hf]
        show (gatherAll c fuel (allTargets md) (s :: seen)).1 = ext ++ [s] ++ seen
        rw [hext, List.append_assoc]
        rfl

theorem gatherAll_seen_ext (c : MDC) (fuel : Nat) :
    ∀ ts seen, ∃ ext, (gatherAll c fuel ts seen).1 = ext ++ seen :=
  gatherAll_seen_ext_of c fuel (gatherSpec_seen_ext c fuel)

-- availCount ----------------------------------------------------------------

theorem filter_sublist_of_imp {α : Type} {p q : α → Bool} (l : List α)
    (h : ∀ a, p a = true → q a = true) : List.Sublist (l.filter p) (l.filter q) := by
  induction l with
  | nil => simp
  | cons a l ih =>
    by_cases hp : p a = true
    · simp only [List.filter, hp, h a hp]
      exact List.Sublist.cons₂ a ih
    · simp only [List.filter, Bool.not_eq_true] at hp
      simp only [List.filter, hp]
      cases hq : q a with
      | false => exact ih
      | true => exact ih.trans (List.sublist_cons_self a _)

theorem availCount_anti {c : MDC} {seen seen' : List Specifier}
    (h : ∀ x, x ∈ seen → x ∈ seen') :
    availCount c seen' ≤ availCount c seen := by
  apply List.Sublist.length_le
  apply filter_sublist_of_imp
  intro a ha
  simp only [decide_eq_true_eq] at ha ⊢
  intro hmem
  exact ha (h a hmem)

theorem availCount_lt {c : MDC} {seen : List Specifier} {s : Specifier}
    (hs : s ∉ seen) (hmem : MDC.find? c s ≠ none) :
    availCount c (s :: seen) < availCount c seen := by
  have hkey : s ∈ c.map Prod.fst := by
    by_contra hk
    exact hmem (MDC.find?_eq_none_iff.mpr (by simpa [MDC.keys] using hk))
  have hsub : List.Sublist
      ((c.map Prod.fst).filter (fun k => decide (k ∉ s :: seen)))
      ((c.map Prod.fst).filter (fun k => decide (k ∉ seen))) := by
    apply filter_sublist_of_imp
    intro a ha
    simp only [decide_eq_true_eq, List.mem_cons, not_or] at ha ⊢
    exact ha.2
  apply Nat.lt_of_le_of_ne (List.Sublist.length_le hsub)
  intro hlen
  have heq := hsub.eq_of_length hlen
  have hmem₂ : s ∈ (c.map Prod.fst).filter (fun k => decide (k ∉ seen)) := by
    simp [List.mem_filter, hkey, hs]
  rw [← heq] at hmem₂
  simp [List.mem_filter] at hmem₂

theorem seen_subset_gatherSpec (c : MDC) (fuel : Nat) (s : Specifier)
    (seen : List Specifier) : ∀ x ∈ seen, x ∈ (gatherSpec c fuel s seen).1 := by
  obtain ⟨ext, h⟩ := gatherSpec_seen_ext c fuel s seen
  intro x hx
  rw [h]
  exact List.mem_append_right _ hx

theorem seen_subset_gatherAll (c : MDC) (fuel : Nat) (ts : List Specifier)
    (seen : List Specifier) : ∀ x ∈ seen, x ∈ (gatherAll c fuel ts seen).1 := by
  obtain ⟨ext, h⟩ := gatherAll_seen_ext c fuel ts seen
  intro x hx
  rw [h]
  exact List.mem_append_right _ hx

-- Reachability through `All` re-exports -------------------------------------

/-- `t` is reachable from `s` by following `export * from` (`All`) re-export
edges through the registry: the modules `get_export_names` is specified to
visit. -/
inductive ReachesAll (c : MDC) : Specifier → Specifier → Prop where
  | refl (s : Specifier) : ReachesAll c s s
  | step {s t u : Specifier} {md : ModuleDataE} :
      ReachesAll c s t → MDC.find? c t = some md → u ∈ allTargets md →
      ReachesAll c s u

/-- `n` is an export name visible from `s`: a direct export (or
`Named`/`Namespace` re-export name) of some module reachable from `s` via
`All` re-export edges.  This is the specification-side description of the
transitive closure `get_export_names` computes. -/
def visibleName (c : MDC) (s : Specifier) (n : String) : Prop :=
  ∃ t md, ReachesAll c s t ∧ MDC.find? c t = some md ∧ n ∈ directNames md

theorem ReachesAll.head {c : MDC} {s u t : Specifier} {md : ModuleDataE}
    (hf : MDC.find? c s = some md) (hu : u ∈ allTargets md)
    (h : ReachesAll c u t) : ReachesAll c s t := by
  induction h with
  | refl => exact ReachesAll.step (ReachesAll.refl s) hf hu
  | step hr hf' hu' ih => exact ReachesAll.step ih hf' hu'

-- Soundness: every gathered name is visible ---------------------------------

theorem gatherAll_sound_of (c : MDC) (fuel : Nat)
    (hspec : ∀ s seen n, n ∈ (gatherSpec c fuel s seen).2 → visibleName c s n) :
    ∀ ts seen n, n ∈ (gatherAll c fuel ts seen).2 →
      ∃ t, t ∈ ts ∧ visibleName c t n := by
  intro ts
  induction ts with
  | nil => intro seen n hn; rw [gatherAll_nil] at hn; simp at hn
  | cons t ts ih =>
    intro seen n hn
    rw [gatherAll_cons] at hn
    rcases List.mem_append.mp hn with h | h
    · exact ⟨t, List.mem_cons_self t ts, hspec t seen n h⟩
    · obtain ⟨t', ht', hv⟩ := ih _ n h
      exact ⟨t', List.mem_cons_of_mem _ ht', hv⟩

theorem gatherSpec_sound (c : MDC) :
    ∀ fuel s seen n, n ∈ (gatherSpec c fuel s seen).2 → visibleName c s n := by
  intro fuel
  induction fuel with
  | zero =>
    intro s seen n hn
    rw [gatherSpec_zero] at hn
    simp at hn
  | succ fuel ih =>
    intro s seen n hn
    by_cases hs : s ∈ seen
    · rw [gatherSpec_mem c fuel hs] at hn; simp at hn
    · cases hf : MDC.find? c s with
      | none => rw [gatherSpec_none c fuel hs hf] at hn; simp at hn
      | some md =>
        rw [gatherSpec_some c fuel hs hf] at hn
        rcases List.mem_append.mp hn with h | h
        · exact ⟨s, md, ReachesAll.refl s, hf, h⟩
        · obtain ⟨u, hu, t, md', hr, hf', hd⟩ :=
            gatherAll_sound_of c fuel ih (allTargets md) (s :: seen) n h
          exact ⟨t, md', ReachesAll.head hf hu hr, hf', hd⟩

-- Completeness: the DFS closes reachability ---------------------------------

/-- The closure property a call to the gather functions establishes, with
enough fuel: the start specifier ends up seen, and every newly seen
registered module has its direct names in the output and its `All` targets
seen. -/
theorem gather_main (c : MDC) : ∀ fuel : Nat,
    (∀ s seen, availCount c seen < fuel →
      s ∈ (gatherSpec c fuel s seen).1 ∧
      (∀ t, t ∈ (gatherSpec c fuel s seen).1 → t ∉ seen →
        ∀ md, MDC.find? c t = some md →
          (∀ n, n ∈ directNames md → n ∈ (gatherSpec c fuel s seen).2) ∧
          (∀ u, u ∈ allTargets md → u ∈ (gatherSpec c fuel s seen).1))) ∧
    (∀ ts seen, availCount c seen < fuel →
      (∀ t, t ∈ ts → t ∈ (gatherAll c fuel ts seen).1) ∧
      (∀ t, t ∈ (gatherAll c fuel ts seen).1 → t ∉ seen →
        ∀ md, MDC.find? c t = some md →
          (∀ n, n ∈ directNames md → n ∈ (gatherAll c fuel ts seen).2) ∧
          (∀ u, u ∈ allTargets md → u ∈ (gatherAll c fuel ts seen).1))) := by
  intro fuel
  induction fuel with
  | zero =>
    constructor
    · intro s seen h; omega
    · intro ts seen h; omega
  | succ fuel ih =>
    have hspec : ∀ s seen, availCount c seen < fuel + 1 →
        s ∈ (gatherSpec c (fuel + 1) s seen).1 ∧
        (∀ t, t ∈ (gatherSpec c (fuel + 1) s seen).1 → t ∉ seen →
          ∀ md, MDC.find? c t = some md →
            (∀ n, n ∈ directNames md → n ∈ (gatherSpec c (fuel + 1) s seen).2) ∧
            (∀ u, u ∈ allTargets md → u ∈ (gatherSpec c (fuel + 1) s seen).1)) := by
      intro s seen havail
      by_cases hs : s ∈ seen
      · rw [gatherSpec_mem c fuel hs]
        refine ⟨hs, ?_⟩
        intro t ht htn
        exact absurd ht htn
      · cases hf : MDC.find? c s with
        | none =>
          rw [gatherSpec_none c fuel hs hf]
          refine ⟨List.mem_cons_self s seen, ?_⟩
          intro t ht htn md hmd
          have : t = s := by
            rcases List.mem_cons.mp ht with h | h
            · exact h
            · exact absurd h htn
          subst this
          rw [hf] at hmd
          exact absurd hmd (by simp)
        | some md =>
          rw [gatherSpec_some c fuel hs hf]
          have havail' : availCount c (s :: seen) < fuel := by
            have h₁ := @availCount_lt c _ _ hs (by simp [hf])
            omega
          have hall := ih.2 (allTargets md) (s :: seen) havail'
          have hsub : ∀ x, x ∈ (s :: seen) →
              x ∈ (gatherAll c fuel (allTargets md) (s :: seen)).1 :=
            seen_subset_gatherAll c fuel (allTargets md) (s :: seen)
          constructor
          · exact hsub s (List.mem_cons_self s seen)
          · intro t ht htn md' hmd'
            by_cases hts : t = s
            · subst hts
              rw [hf] at hmd'
              injection hmd' with hmd'
              subst hmd'
              constructor
              · intro n hn
                exact List.mem_append_left _ hn
              · intro u hu
                exact (hall.1) u hu
            · have htn' : t ∉ s :: seen := by
                intro hmem
                rcases List.mem_cons.mp hmem with h | h
                · exact hts h
                · exact htn h
              have := hall.2 t ht htn' md' hmd'
              exact ⟨fun n hn => List.mem_append_right _ (this.1 n hn), this.2⟩
    refine ⟨hspec, ?_⟩
    intro ts
    induction ts with
    | nil =>
      intro seen havail
      rw [gatherAll_nil]
      refine ⟨by simp, ?_⟩
      intro t ht htn
      exact absurd ht htn
    | cons t ts iht =>
      intro seen havail
      rw [gatherAll_cons]
      have h₁ := hspec t seen havail
      have hseen₁ : ∀ x, x ∈ seen → x ∈ (gatherSpec c (fuel + 1) t seen).1 :=
        seen_subset_gatherSpec c (fuel + 1) t seen
      have havail₁ : availCount c (gatherSpec c (fuel + 1) t seen).1 < fuel + 1 :=
        Nat.lt_of_le_of_lt (availCount_anti hseen₁) havail
      have h₂ := iht (gatherSpec c (fuel + 1) t seen).1 havail₁
      have hseen₂ : ∀ x, x ∈ (gatherSpec c (fuel + 1) t seen).1 →
          x ∈ (gatherAll c (fuel + 1) ts (gatherSpec c (fuel + 1) t seen).1).1 :=
        seen_subset_gatherAll c (fuel + 1) ts (gatherSpec c (fuel + 1) t seen).1
      constructor
      · intro t' ht'
        rcases List.mem_cons.mp ht' with h | h
        · subst h
          exact hseen₂ t' (h₁.1)
        · exact h₂.1 t' h
      · intro u hu hun md hmd
        by_cases hu₁ : u ∈ (gatherSpec c (fuel + 1) t seen).1
        · have := h₁.2 u hu₁ hun md hmd
          exact ⟨fun n hn => List.mem_append_left _ (this.1 n hn),
            fun v hv => hseen₂ v (this.2 v hv)⟩
        · have := h₂.2 u hu hu₁ md hmd
          exact ⟨fun n hn => List.mem_append_right _ (this.1 n hn), this.2⟩

theorem availCount_le_length (c : MDC) (seen : List Specifier) :
    availCount c seen ≤ c.length := by
  unfold availCount
  calc ((c.map Prod.fst).filter _).length ≤ (c.map Prod.fst).length :=
        List.length_filter_le _ _
    _ = c.length := List.length_map _ _

theorem gatherSpec_reaches_seen (c : MDC) {fuel : Nat} {s t : Specifier}
    (hfuel : availCount c [] < fuel) (hr : ReachesAll c s t) :
    t ∈ (gatherSpec c fuel s []).1 := by
  induction hr with
  | refl => exact ((gather_main c fuel).1 s [] hfuel).1
  | step hr hf hu ih =>
    exact (((gather_main c fuel).1 s [] hfuel).2 _ ih (by simp) _ hf).2 _ hu

theorem visible_mem_gather (c : MDC) {fuel : Nat} {s : Specifier} {n : String}
    (hfuel : availCount c [] < fuel) (hv : visibleName c s n) :
    n ∈ (gatherSpec c fuel s []).2 := by
  obtain ⟨t, md, hr, hf, hd⟩ := hv
  have ht := gatherSpec_reaches_seen c hfuel hr
  exact (((gather_main c fuel).1 s [] hfuel).2 t ht (by simp) md hf).1 n hd

/-- Membership characterization of the raw gathered list at the fuel used by
`get_export_names`. -/
theorem gather_mem_iff (c : MDC) (s : Specifier) (n : String) :
    n ∈ (gatherSpec c (c.length + 1) s []).2 ↔ visibleName c s n := by
  constructor
  · exact gatherSpec_sound c (c.length + 1) s [] n
  · exact visible_mem_gather c
      (Nat.lt_succ_of_le (availCount_le_length c []))

-- Fuel stability ------------------------------------------------------------

theorem gather_fuel_stable (c : MDC) : ∀ f : Nat,
    (∀ s seen, availCount c seen < f →
      gatherSpec c (f + 1) s seen = gatherSpec c f s seen) ∧
    (∀ ts seen, availCount c seen < f →
      gatherAll c (f + 1) ts seen = gatherAll c f ts seen) := by
  intro f
  induction f with
  | zero =>
    constructor
    · intro s seen h; omega
    · intro ts seen h; omega
  | succ f ih =>
    have hss : ∀ s seen, availCount c seen < f + 1 →
        gatherSpec c (f + 2) s seen = gatherSpec c (f + 1) s seen := by
      intro s seen havail
      by_cases hs : s ∈ seen
      · rw [gatherSpec_mem c (f + 1) hs, gatherSpec_mem c f hs]
      · cases hf : MDC.find? c s with
        | none => rw [gatherSpec_none c (f + 1) hs hf, gatherSpec_none c f hs hf]
        | some md =>
          rw [gatherSpec_some c (f + 1) hs hf, gatherSpec_some c f hs hf]
          have havail' : availCount c (s :: seen) < f := by
            have := @availCount_lt c _ _ hs (by simp [hf])
            omega
          rw [ih.2 (allTargets md) (s :: seen) havail']
    refine ⟨hss, ?_⟩
    intro ts
    induction ts with
    | nil =>
      intro seen havail
      rw [gatherAll_nil, gatherAll_nil]
    | cons t ts iht =>
      intro seen havail
      rw [gatherAll_cons, gatherAll_cons, hss t seen havail]
      have hseen₁ : ∀ x, x ∈ seen → x ∈ (gatherSpec c (f + 1) t seen).1 :=
        seen_subset_gatherSpec c (f + 1) t seen
      have havail₁ : availCount c (gatherSpec c (f + 1) t seen).1 < f + 1 :=
        Nat.lt_of_le_of_lt (availCount_anti hseen₁) havail
      rw [iht (gatherSpec c (f + 1) t seen).1 havail₁]

/-- Any fuel at least `c.length + 1` gives the same result as
`c.length + 1` itself: the fuel is an artifact of the embedding, and the
Rust recursion (guarded only by the seen-set) computes this common value. -/
theorem gatherSpec_fuel_ge (c : MDC) (s : Specifier) : ∀ f : Nat,
    c.length + 1 ≤ f →
    gatherSpec c f s [] = gatherSpec c (c.length + 1) s [] := by
  intro f
  induction f with
  | zero => intro h; omega
  | succ f ihf =>
    intro h
    rcases Nat.lt_or_ge c.length f with hlt | hge
    · have h₁ : availCount c [] < f :=
        Nat.lt_of_le_of_lt (availCount_le_length c []) hlt
      rw [(gather_fuel_stable c f).1 s [] h₁]
      exact ihf hlt
    · have : f = c.length := by omega
      subst this
      rfl

-- The export-name order: code-point lexicographic ---------------------------

theorem char_eq_of_toNat {a b : Char} (h : a.toNat = b.toNat) : a = b := by
  cases a
  cases b
  simp only [Char.toNat] at h
  congr 1
  exact UInt32.toNat.inj h

theorem str_eq_of_toList {a b : String} (h : a.toList = b.toList) : a = b := by
  cases a
  cases b
  exact congrArg String.mk (by simpa [String.toList] using h)

theorem charsLe_total : ∀ as bs : List Char,
    charsLe as bs = true ∨ charsLe bs as = true := by
  intro as
  induction as with
  | nil => intro bs; left; rfl
  | cons a as ih =>
    intro bs
    cases bs with
    | nil => right; rfl
    | cons b bs =>
      by_cases h₁ : a.toNat < b.toNat
      · left; simp [charsLe, h₁]
      · by_cases h₂ : b.toNat < a.toNat
        · right; simp [charsLe, h₂]
        · rcases ih bs with h | h
          · left; simp [charsLe, h₁, h₂, h]
          · right; simp [charsLe, h₂, h₁, h]

theorem charsLe_trans : ∀ as bs cs : List Char,
    charsLe as bs = true → charsLe bs cs = true → charsLe as cs = true := by
  intro as
  induction as with
  | nil => intro bs cs _ _; rfl
  | cons a as ih =>
    intro bs cs h₁ h₂
    cases bs with
    | nil => simp [charsLe] at h₁
    | cons b bs =>
      cases cs with
      | nil => simp [charsLe] at h₂
      | cons c cs =>
        by_cases hba : b.toNat < a.toNat
        · simp [charsLe, show ¬a.toNat < b.toNat by omega, hba] at h₁
        · by_cases hcb : c.toNat < b.toNat
          · simp [charsLe, show ¬b.toNat < c.toNat by omega, hcb] at h₂
          · by_cases hac : a.toNat < c.toNat
            · simp [charsLe, hac]
            · have hab : ¬a.toNat < b.toNat := by omega
              have hbc : ¬b.toNat < c.toNat := by omega
              have hca : ¬c.toNat < a.toNat := by omega
              simp only [charsLe, hab, hba, if_false, if_true] at h₁
              simp only [charsLe, hbc, hcb, if_false, if_true] at h₂
              simp only [charsLe, hac, hca, if_false, if_true]
              exact ih bs cs h₁ h₂

theorem charsLe_antisymm : ∀ as bs : List Char,
    charsLe as bs = true → charsLe bs as = true → as = bs := by
  intro as
  induction as with
  | nil =>
    intro bs h₁ h₂
    cases bs with
    | nil => rfl
    | cons b bs => simp [charsLe] at h₂
  | cons a as ih =>
    intro bs h₁ h₂
    cases bs with
    | nil => simp [charsLe] at h₁
    | cons b bs =>
      by_cases hab : a.toNat < b.toNat
      · simp [charsLe, show ¬b.toNat < a.toNat by omega, hab] at h₂
      · by_cases hba : b.toNat < a.toNat
        · simp [charsLe, hab, hba] at h₁
        · simp only [charsLe, hab, hba, if_false] at h₁ h₂
          have : a = b := char_eq_of_toNat (by omega)
          rw [this, ih bs h₁ h₂]

instance : IsTotal String strLeR :=
  ⟨fun a b => charsLe_total a.toList b.toList⟩

instance : IsTrans String strLeR :=
  ⟨fun a b c => charsLe_trans a.toList b.toList c.toList⟩

instance : IsAntisymm String strLeR :=
  ⟨fun a b h₁ h₂ => str_eq_of_toList (charsLe_antisymm a.toList b.toList h₁ h₂)⟩

-- get_export_names: characterization ----------------------------------------

/-- The iteration order of the intermediate `HashSet` does not affect
`get_export_names`: any permutation sorts to the same list. -/
theorem getExportNamesOrd_eq_of_perm (ord : List String → List String)
    (h : ∀ l, List.Perm (ord l) l) (c : MDC) (s : Specifier) :
    MDC.getExportNamesOrd ord c s = MDC.getExportNames c s := by
  unfold MDC.getExportNames MDC.getExportNamesOrd
  apply @List.eq_of_perm_of_sorted String strLeR _ _ _
  · exact (List.perm_insertionSort _ _).trans
      ((h _).trans (List.perm_insertionSort _ _).symm)
  · exact List.sorted_insertionSort _ _
  · exact List.sorted_insertionSort _ _

theorem getExportNames_sorted_le (c : MDC) (s : Specifier) :
    List.Sorted strLeR (MDC.getExportNames c s) :=
  List.sorted_insertionSort _ _

theorem getExportNames_nodup (c : MDC) (s : Specifier) :
    (MDC.getExportNames c s).Nodup :=
  (List.perm_insertionSort _ _).symm.nodup
    (List.nodup_dedup (gatherSpec c (c.length + 1) s []).2)

/-- Strictly ascending: each adjacent-or-later pair is `≤` and distinct. -/
theorem getExportNames_sorted_lt (c : MDC) (s : Specifier) :
    List.Pairwise (fun a b => strLeR a b ∧ a ≠ b) (MDC.getExportNames c s) :=
  (getExportNames_sorted_le c s).and (getExportNames_nodup c s)

theorem getExportNames_mem_iff (c : MDC) (s : Specifier) (n : String) :
    n ∈ MDC.getExportNames c s ↔ visibleName c s n := by
  unfold MDC.getExportNames MDC.getExportNamesOrd
  rw [(List.perm_insertionSort _ _).mem_iff]
  simp only [id, List.mem_dedup]
  exact gather_mem_iff c s n

-- C3 -------------------------------------------------------------------------

/-- C3: `get_export_names` resolves `All` re-exports transitively through
the registry: for every collection and specifier, a name is returned iff it
is a direct export name of some module reachable through `All` re-export
edges (`visibleName`), each such name appears exactly once (the result has
no duplicates), and the computation terminates with this value even on
cyclic re-export graphs: the embedding's fuel is irrelevant from
`c.length + 1` upward because the seen-set, not the fuel, stops the
recursion. -/
theorem c3_get_export_names (c : MDC) (s : Specifier) :
    (MDC.getExportNames c s).Nodup ∧
    (∀ n, n ∈ MDC.getExportNames c s ↔ visibleName c s n) ∧
    (∀ f, c.length + 1 ≤ f →
      List.insertionSort strLeR ((gatherSpec c f s []).2.dedup) =
        MDC.getExportNames c s) := by
  refine ⟨getExportNames_nodup c s, getExportNames_mem_iff c s, ?_⟩
  intro f hf
  rw [gatherSpec_fuel_ge c s f hf]
  rfl

/-- Witness for C3 on the claim's cyclic scenario: `a` exports `X`;
`b` does `export * from a`; `cm` does `export * from b`; and the graph is
cyclic because `a` also does `export * from cm`.  Querying `cm` returns
`X` exactly once, regardless of extra fuel. -/
theorem c3_get_export_names_witness :
    let aS : Specifier := ⟨"file", "file:///a.ts"⟩
    let bS : Specifier := ⟨"file", "file:///b.ts"⟩
    let cS : Specifier := ⟨"file", "file:///c.ts"⟩
    let coll : MDC :=
      [(aS, { id := 0, hasTla := false,
              exports := [⟨"X", none⟩],
              reExports := [⟨ReExportNameE.all, cS, 2⟩],
              textChanges := [], requiresTranspile := false }),
       (bS, { id := 1, hasTla := false, exports := [],
              reExports := [⟨ReExportNameE.all, aS, 0⟩],
              textChanges := [], requiresTranspile := false }),
       (cS, { id := 2, hasTla := false, exports := [],
              reExports := [⟨ReExportNameE.all, bS, 1⟩],
              textChanges := [], requiresTranspile := false })]
    MDC.getExportNames coll cS = ["X"] ∧
    visibleName coll cS "X" ∧
    (MDC.getExportNames coll cS).Nodup ∧
    List.insertionSort strLeR ((gatherSpec coll 40 cS []).2.dedup) =
      MDC.getExportNames coll cS := by
  intro aS bS cS coll
  refine ⟨?_, ?_, (c3_get_export_names coll cS).1, ?_⟩
  · decide
  · exact ((c3_get_export_names coll cS).2.1 "X").mp (by decide)
  · exact (c3_get_export_names coll cS).2.2 40 (by decide)

-- ===========================================================================
-- The per-module analyzer (`analyze_esm_module`)
-- ===========================================================================
-- The parser is an external collaborator: its output (a syntax tree with
-- token spans and scope-analysis contexts) is input data here.  Spans are
-- byte offsets into the module source; `ctxt` is the `SyntaxContext` of an
-- identifier after scope analysis, so `to_id()` is the pair `(sym, ctxt)`.

/-- A source span (`SourceRange` as a byte range). -/
structure SpanE where
  lo : Nat
  hi : Nat
deriving DecidableEq, Repr

/-- An identifier with its scope-analysis context; `to_id()` = `(sym, ctxt)`. -/
structure IdentE where
  sym : String
  ctxt : Nat
deriving DecidableEq, Repr

abbrev IdE := String × Nat

def IdentE.toId (i : IdentE) : IdE := (i.sym, i.ctxt)

/-- `ModuleExportName`: an identifier or a string literal (the latter is
`todo!()` everywhere in the packer). -/
inductive ModExportNameE where
  | ident (i : IdentE)
  | strLit
deriving DecidableEq, Repr

/-- `ImportSpecifier`. -/
inductive ImportSpecE where
  | defaultS (localId : IdentE)
  | namespaceS (localId : IdentE)
  | namedS (isTypeOnly : Bool) (localId : IdentE) (imported : Option ModExportNameE)
deriving DecidableEq, Repr

/-- `ExportSpecifier`. -/
inductive ExportSpecE where
  | defaultE
  | namedE (isTypeOnly : Bool) (orig : ModExportNameE) (exported : Option ModExportNameE)
  | namespaceE (name : ModExportNameE)
deriving DecidableEq, Repr

/-- `DefaultDecl` of an `export default` declaration. -/
inductive DefaultDeclE where
  | classD (ident : Option IdentE)
  | fnD (ident : Option IdentE)
  | tsInterfaceD
deriving DecidableEq, Repr

/-- `PropName` inside an object destructuring pattern. -/
inductive PropNameE where
  | identP (sym : String)
  | strP
  | computedP
  | bigIntP
  | numP
deriving DecidableEq, Repr

/-- `ObjectPatProp`.  For a rest property only a plain identifier argument is
supported (everything else is `todo!()`), recorded as `restP (some sym)`
resp. `restP none`. -/
inductive ObjPatPropE where
  | keyValueP (key : PropNameE)
  | assignP (keySym : String)
  | restP (argIdent : Option String)
deriving DecidableEq, Repr

/-- `Pat` in a `var` declarator position. -/
inductive PatE where
  | identP (sym : String)
  | objectP (props : List ObjPatPropE)
  | arrayP
  | assignP
  | restP
  | invalidP
  | exprP
deriving DecidableEq, Repr

/-- `Decl` inside an `export` declaration. -/
inductive DeclE where
  | classD (declare : Bool) (ident : IdentE)
  | fnD (declare : Bool) (ident : IdentE) (hasBody : Bool)
  | varD (declare : Bool) (pats : List PatE)
  | tsEnumD (declare : Bool) (ident : IdentE)
  | tsModuleD (declare : Bool) (identName : Option String)
  | tsInterfaceD
  | tsTypeAliasD
deriving DecidableEq, Repr

/-- The node-kind label of a syntax-tree node, carrying the per-node data
the packer consults.  Kinds map onto the `Node` match arms of
`TextChangeCollector::visit`:

* `identK`: `Node::Ident`;
* `objectLitK`: `Node::ObjectLit` (a default visit-children node, but its
  children see it as their parent in `replace_ident_text`);
* `passK`: any other node of the big default visit-children group
  (`ExprStmt`, `CallExpr`, `MemberExpr`, `NewExpr`, `ClassDecl`, `Class`,
  `VarDeclarator`, `BindingIdent`, literals, ...);
* `fnExprK`, `arrowK`: `FnExpr`/`ArrowExpr` (default group, and barriers for
  the top-level-await scan);
* `classMethodK`, `fnDeclK`: own match arms (remove if bodyless), barriers;
* `awaitK`: `AwaitExpr` (default group; the match target of the scan);
* `varDeclK`: `Node::VarDecl`;
* `tsTypeK`: the final group of type-only nodes that are removed outright
  (`TsTypeAnn`, `TsTypeRef`, `TsTypeAliasDecl`, `TsInterfaceDecl`, ...);
* `importDeclK`, `namedExportK`, `exportAllK`: removed outright;
* `exportDeclK`, `exportDefaultDeclK`, `exportDefaultExprK`: own arms;
  `afterExportTok`/`afterDefaultTok` is the start of the token following the
  `export` resp. `default` keyword (from the parser's token list);
* `tsOtherK`: `TsImportEqualsDecl`/`TsExportAssignment`/
  `TsNamespaceExportDecl` (module decls; removed outright by the visitor,
  ignored by the analyzer). -/
inductive VKindE where
  | identK (span : SpanE) (sym : String) (ctxt : Nat)
  | objectLitK (span : SpanE)
  | passK (span : SpanE)
  | fnExprK (span : SpanE)
  | arrowK (span : SpanE)
  | classMethodK (span : SpanE) (hasBody : Bool)
  | fnDeclK (span : SpanE) (hasBody : Bool)
  | awaitK (span : SpanE)
  | varDeclK (span : SpanE) (declare : Bool)
  | tsTypeK (span : SpanE)
  | importDeclK (span : SpanE) (typeOnly : Bool) (src : String)
      (specifiers : List ImportSpecE)
  | namedExportK (span : SpanE) (typeOnly : Bool) (src : Option String)
      (specifiers : List ExportSpecE)
  | exportAllK (span : SpanE) (typeOnly : Bool) (src : String)
  | exportDeclK (span : SpanE) (afterExportTok : Nat) (decl : DeclE)
  | exportDefaultDeclK (span : SpanE) (afterDefaultTok : Nat) (decl : DefaultDeclE)
  | exportDefaultExprK (span : SpanE) (afterDefaultTok : Nat)
  | tsOtherK (span : SpanE)
deriving DecidableEq, Repr

/-- A syntax-tree node: a kind label plus children in source order. -/
inductive VNodeE where
  | mk (kind : VKindE) (children : List VNodeE)

def VNodeE.kind : VNodeE → VKindE
  | .mk k _ => k

def VNodeE.children : VNodeE → List VNodeE
  | .mk _ cs => cs

/-- The four node kinds `has_function_scoped_node` refuses to descend into. -/
def VNodeE.isTlaBarrier (n : VNodeE) : Bool :=
  match n.kind with
  | .fnDeclK _ _ => true
  | .fnExprK _ => true
  | .arrowK _ => true
  | .classMethodK _ _ => true
  | _ => false

/-- The match predicate used by the top-level-await scan:
`node.is::<AwaitExpr>()`. -/
def VNodeE.isAwaitExpr (n : VNodeE) : Bool :=
  match n.kind with
  | .awaitK _ => true
  | _ => false

mutual

/-- `has_function_scoped_node`: the node matches, or some child outside a
nested function boundary does. -/
def hasFnScoped : VNodeE → Bool
  | n@(.mk _ cs) => n.isAwaitExpr || hasFnScopedList cs

def hasFnScopedList : List VNodeE → Bool
  | [] => false
  | ch :: rest =>
    (!ch.isTlaBarrier && hasFnScoped ch) || hasFnScopedList rest

end

-- The text-change collector (`TextChangeCollector`) --------------------------

/-- Whitespace per `char::is_whitespace` restricted to ASCII (all concrete
sources in this development are ASCII). -/
def isWs (ch : Char) : Bool := ch.isWhitespace

/-- Length of `text.trim_end()` for the text before a position. -/
def trimEndLen (cs : List Char) : Nat :=
  (cs.reverse.dropWhile isWs).length

/-- `ModuleData::add_remove_range`. -/
def ModuleDataE.addRemoveRange (md : ModuleDataE) (lo hi : Nat) : ModuleDataE :=
  { md with textChanges := md.textChanges ++ [⟨lo, hi, []⟩] }

/-- `ModuleData::add_export_name`. -/
def ModuleDataE.addExportName (md : ModuleDataE) (name : String) : ModuleDataE :=
  { md with exports := md.exports ++ [⟨name, none⟩] }

def ModuleDataE.pushChange (md : ModuleDataE) (tc : TextChangeE) : ModuleDataE :=
  { md with textChanges := md.textChanges ++ [tc] }

def ModuleDataE.pushExport (md : ModuleDataE) (e : ExportNameE) : ModuleDataE :=
  { md with exports := md.exports ++ [e] }

def ModuleDataE.pushReExport (md : ModuleDataE) (re : ReExportE) : ModuleDataE :=
  { md with reExports := md.reExports ++ [re] }

/-- The state of `TextChangeCollector`: the only two `ModuleData` fields the
visitor ever writes (`text_changes` and `requires_transpile`). -/
structure CollectAcc where
  textChanges : List TextChangeE
  requiresTranspile : Bool
deriving Repr

def CollectAcc.push (acc : CollectAcc) (tc : TextChangeE) : CollectAcc :=
  { acc with textChanges := acc.textChanges ++ [tc] }

/-- `add_remove_range` on the collector state. -/
def CollectAcc.removeRange (acc : CollectAcc) (lo hi : Nat) : CollectAcc :=
  acc.push ⟨lo, hi, []⟩

/-- `TextChangeCollector::remove_range_with_previous_whitespace`: extend the
removed range backwards over the whitespace before it
(`file_text[..range.start].trim_end().len() .. range.end`). -/
def removeRangeWithPrevWs (src : List Char) (acc : CollectAcc) (sp : SpanE) :
    CollectAcc :=
  acc.removeRange (trimEndLen (src.take sp.lo)) sp.hi

/-- `TextChangeCollector::remove_range_with_next_whitespace`: extend the
removed range forwards over the whitespace after it. -/
def removeRangeWithNextWs (src : List Char) (acc : CollectAcc) (sp : SpanE) :
    CollectAcc :=
  acc.removeRange sp.lo (sp.hi + ((src.drop sp.hi).takeWhile isWs).length)

/-- Lookup in the pass-A alias table (`replace_ids: HashMap<Id, String>`). -/
def lookupId (tbl : List (IdE × String)) (i : IdE) : Option String :=
  match tbl with
  | [] => none
  | (k, v) :: rest => if k = i then some v else lookupId rest i

/-- Insertion into the alias table (`HashMap::insert`). -/
def insertId (tbl : List (IdE × String)) (i : IdE) (text : String) :
    List (IdE × String) :=
  match tbl with
  | [] => [(i, text)]
  | (k, v) :: rest =>
    if k = i then (k, text) :: rest else (k, v) :: insertId rest i text

/-- `TextChangeCollector::replace_ident_text`: replace the identifier span;
when the identifier's parent is an object literal (shorthand property), the
replacement is `sym: text` to preserve syntax. -/
def replaceIdentText (acc : CollectAcc) (parentIsObjLit : Bool) (sp : SpanE)
    (sym : String) (newText : String) : CollectAcc :=
  if parentIsObjLit then
    acc.push ⟨sp.lo, sp.hi, (sym ++ ": " ++ newText).toList⟩
  else
    acc.push ⟨sp.lo, sp.hi, newText.toList⟩

/-- The context the collector carries: the pass-A alias table, the module
source text, and whether this is the root module. -/
structure CollectCtx where
  replaceIds : List (IdE × String)
  src : List Char
  isRoot : Bool

/-- Does a `DefaultDecl` carry its own identifier? (`maybe_ident`). -/
def DefaultDeclE.maybeIdent : DefaultDeclE → Option IdentE
  | .classD i => i
  | .fnD i => i
  | .tsInterfaceD => none

mutual

/-- `TextChangeCollector::visit`, for the node kinds this embedding covers;
`parentIsObjLit` tells an identifier whether its parent node is an
`ObjectLit` (the source asks `ident.parent()`). -/
def collectVisit (ctx : CollectCtx) (parentIsObjLit : Bool)
    (acc : CollectAcc) : VNodeE → CollectAcc
  | .mk k cs =>
    match k with
    | .identK sp sym ctxt =>
      match lookupId ctx.replaceIds (sym, ctxt) with
      | some text => replaceIdentText acc parentIsObjLit sp sym text
      | none => acc
    | .exportDefaultExprK sp afterDefaultTok =>
      -- note: the source records the rewrite but does not visit children
      if !ctx.isRoot then
        acc.push ⟨sp.lo, afterDefaultTok, "const __pack_default__ = ".toList⟩
      else
        acc
    | .exportDefaultDeclK sp afterDefaultTok decl =>
      match decl with
      | .tsInterfaceD => acc.removeRange sp.lo sp.hi
      | _ =>
        let acc :=
          if !ctx.isRoot then
            let acc := acc.removeRange sp.lo afterDefaultTok
            if decl.maybeIdent.isNone then
              acc.push ⟨sp.lo, sp.lo, "const __pack_default__ = ".toList⟩
            else
              acc
          else
            acc
        collectVisitList ctx false acc cs
    | .exportDeclK sp afterExportTok decl =>
      match decl with
      | .tsInterfaceD => acc.removeRange sp.lo sp.hi
      | .tsTypeAliasD => acc.removeRange sp.lo sp.hi
      | .fnD _ _ false => acc.removeRange sp.lo sp.hi
      | _ =>
        let acc :=
          if !ctx.isRoot then
            acc.removeRange sp.lo afterExportTok
          else
            acc
        collectVisitList ctx false acc cs
    | .importDeclK sp _ _ _ => acc.removeRange sp.lo sp.hi
    | .namedExportK sp _ _ _ => acc.removeRange sp.lo sp.hi
    | .exportAllK sp _ _ => acc.removeRange sp.lo sp.hi
    | .varDeclK sp declare =>
      if declare then
        removeRangeWithPrevWs ctx.src acc sp
      else
        collectVisitList ctx false acc cs
    | .fnDeclK sp hasBody =>
      if !hasBody then
        removeRangeWithPrevWs ctx.src acc sp
      else
        collectVisitList ctx false acc cs
    | .classMethodK sp hasBody =>
      if !hasBody then
        removeRangeWithPrevWs ctx.src acc sp
      else
        collectVisitList ctx false acc cs
    | .objectLitK _ => collectVisitList ctx true acc cs
    | .passK _ => collectVisitList ctx false acc cs
    | .fnExprK _ => collectVisitList ctx false acc cs
    | .arrowK _ => collectVisitList ctx false acc cs
    | .awaitK _ => collectVisitList ctx false acc cs
    | .tsTypeK sp => acc.removeRange sp.lo sp.hi
    | .tsOtherK sp => acc.removeRange sp.lo sp.hi

/-- `visit_children`: visit each child in order, threading the append-only
edit accumulator. -/
def collectVisitList (ctx : CollectCtx) (parentIsObjLit : Bool)
    (acc : CollectAcc) : List VNodeE → CollectAcc
  | [] => acc
  | ch :: rest =>
    collectVisitList ctx parentIsObjLit (collectVisit ctx parentIsObjLit acc ch) rest

end

/-- Run the collector over a module's top-level items
(`collector.visit_children(module.into())`), writing the accumulated
`text_changes` and `requires_transpile` back into the module record (the
only fields `TextChangeCollector` mutates). -/
def collectRun (ctx : CollectCtx) (md : ModuleDataE) (body : List VNodeE) :
    ModuleDataE :=
  let acc := collectVisitList ctx false ⟨md.textChanges, md.requiresTranspile⟩ body
  { md with textChanges := acc.textChanges,
            requiresTranspile := acc.requiresTranspile }

-- The module graph (external collaborator) -----------------------------------

/-- An ESM module as provided by the graph and the parser: its source text
and the parsed top-level items (`module.body`). -/
structure EsmInfoE where
  src : List Char
  body : List VNodeE

/-- `deno_graph::Module` variants as the packer distinguishes them:
`Esm`, `Json`, and everything else (`Npm`/`Node`/`External`), which hits
`todo!()`. -/
inductive GModuleE where
  | esm (info : EsmInfoE)
  | json (source : List Char)
  | other

/-- The `ModuleGraph` collaborator, reduced to what `pack` consumes: the
declared roots, the sequence of `(specifier, module)` pairs the graph walk
yields (already deduplicated, and already shortened by
`skip_previous_dependencies` when remote modules are not included), and the
dependency resolver. -/
structure GraphE where
  roots : List Specifier
  modules : List (Specifier × GModuleE)
  resolveDep : String → Specifier → Option Specifier

/-- Is a top-level node a `ModuleItem::ModuleDecl` (as opposed to a
`Stmt`)?  Mirrors the `ModuleItem` match arms of `analyze_esm_module`. -/
def VNodeE.isModuleDecl (n : VNodeE) : Bool :=
  match n.kind with
  | .importDeclK _ _ _ _ => true
  | .namedExportK _ _ _ _ => true
  | .exportAllK _ _ _ => true
  | .exportDeclK _ _ _ => true
  | .exportDefaultDeclK _ _ _ => true
  | .exportDefaultExprK _ _ => true
  | .tsOtherK _ => true
  | _ => false

/-- First pass of `analyze_esm_module` over one import declaration's
specifiers: build the alias table entries.  String import names are
`todo!()`. -/
def importSpecifiersIntoTable (depId : Nat) (specs : List ImportSpecE)
    (tbl : List (IdE × String)) : Except String (List (IdE × String)) :=
  specs.foldlM
    (fun tbl spec =>
      match spec with
      | .defaultS localId =>
        pure (insertId tbl localId.toId (toCodeString depId ++ ".default"))
      | .namespaceS localId =>
        pure (insertId tbl localId.toId (toCodeString depId))
      | .namedS isTypeOnly localId imported =>
        if isTypeOnly then
          pure tbl
        else
          match imported with
          | some (.strLit) => Except.error "todo: string import name"
          | some (.ident i) =>
            pure (insertId tbl localId.toId
              (toCodeString depId ++ "." ++ i.sym))
          | none =>
            pure (insertId tbl localId.toId
              (toCodeString depId ++ "." ++ localId.sym)))
    tbl

/-- One step of the first loop of `analyze_esm_module`: an import
declaration resolves its source and contributes alias-table entries
(registering the dependency id on first touch); any other module decl is
skipped; a plain statement is scanned for top-level await. -/
def importStep (g : GraphE) (spec : Specifier)
    (st : List (IdE × String) × MDC × Bool) (item : VNodeE) :
    Except String (List (IdE × String) × MDC × Bool) :=
  let (tbl, c, foundTla) := st
  match item.kind with
  | .importDeclK _ typeOnly src specs =>
    if typeOnly then
      pure (tbl, c, foundTla)
    else
      match g.resolveDep src spec with
      | some depSpec =>
        let r := MDC.getMutId c depSpec
        (importSpecifiersIntoTable r.1 specs tbl).map
          (fun tbl' => (tbl', r.2, foundTla))
      | none => Except.error "todo: unresolved import dependency"
  | .namedExportK _ _ _ _ => pure st
  | .exportAllK _ _ _ => pure st
  | .exportDeclK _ _ _ => pure st
  | .exportDefaultDeclK _ _ _ => pure st
  | .exportDefaultExprK _ _ => pure st
  | .tsOtherK _ => pure st
  | _ =>
    -- a `ModuleItem::Stmt`: scan for top-level await
    if !foundTla && hasFnScoped item then
      pure (tbl, c, true)
    else
      pure st

/-- First loop of `analyze_esm_module`: scan top-level statements for
top-level await and resolve every (non type-only) import into the alias
table, registering dependency ids on first touch. -/
def analyzePassImports (g : GraphE) (spec : Specifier) (body : List VNodeE)
    (c : MDC) : Except String (List (IdE × String) × MDC × Bool) :=
  body.foldlM (importStep g spec) ([], c, false)

-- Export recording (second loop of `analyze_esm_module`) ---------------------

/-- Record the export names bound by one `var` declarator pattern
(`Decl::Var` arm of the `ExportDecl` analysis).  Unsupported pattern forms
are `todo!()`. -/
def recordVarPat (md : ModuleDataE) : PatE → Except String ModuleDataE
  | .identP sym => pure (md.addExportName sym)
  | .objectP props =>
    props.foldlM
      (fun md prop =>
        match prop with
        | .keyValueP (.identP sym) => pure (md.addExportName sym)
        | .keyValueP .strP => Except.error "todo: string object pattern key"
        | .keyValueP .computedP => pure md
        | .keyValueP .bigIntP => pure md
        | .keyValueP .numP => pure md
        | .assignP keySym => pure (md.addExportName keySym)
        | .restP (some sym) => pure (md.addExportName sym)
        | .restP none => Except.error "todo: non-ident rest pattern")
      md
  | .arrayP => Except.error "todo: array pattern export"
  | .assignP => Except.error "todo: assign pattern export"
  | .restP => Except.error "todo: rest pattern export"
  | .invalidP => Except.error "todo: invalid pattern export"
  | .exprP => Except.error "todo: expr pattern export"

/-- The `ModuleDecl::ExportDecl` arm of the export-recording loop: note the
root-module guard (`if is_root_module { continue; }`). -/
def recordExportDecl (md : ModuleDataE) : DeclE → Except String ModuleDataE
  | .classD declare ident =>
    if declare then pure md
    else pure (md.pushExport ⟨ident.sym, none⟩)
  | .fnD declare ident _ =>
    if declare then pure md
    else pure (md.pushExport ⟨ident.sym, none⟩)
  | .varD declare pats =>
    if declare then pure md
    else pats.foldlM recordVarPat md
  | .tsEnumD declare ident =>
    if declare then pure md
    else pure (md.pushExport ⟨ident.sym, none⟩)
  | .tsModuleD declare identName =>
    if declare then pure md
    else
      match identName with
      | some sym => pure (md.pushExport ⟨sym, none⟩)
      | none => pure md
  | .tsInterfaceD => pure md
  | .tsTypeAliasD => pure md

/-- The `ExportNamed` arm with a source (`export { .. } from "dep"`):
re-exports pointing at the dependency. -/
def recordNamedReExports (md : ModuleDataE) (depSpec : Specifier) (depId : Nat)
    (specs : List ExportSpecE) : Except String ModuleDataE :=
  specs.foldlM
    (fun md spec =>
      match spec with
      | .defaultE => Except.error "todo: default export specifier"
      | .namedE isTypeOnly orig exported =>
        if isTypeOnly then pure md
        else
          match orig with
          | .strLit => Except.error "todo: string export name"
          | .ident origI =>
            match exported with
            | some (.strLit) => Except.error "todo: string export name"
            | some (.ident exI) =>
              pure (md.pushReExport
                ⟨.named ⟨origI.sym, some exI.sym⟩, depSpec, depId⟩)
            | none =>
              pure (md.pushReExport ⟨.named ⟨origI.sym, none⟩, depSpec, depId⟩)
      | .namespaceE name =>
        match name with
        | .strLit => Except.error "todo: string export name"
        | .ident i =>
          pure (md.pushReExport ⟨.nsName i.sym, depSpec, depId⟩))
    md

/-- The `ExportNamed` arm without a source (`export { a, b as c }`): the
local name is resolved through the alias table first; when it was
alias-rewritten and no explicit `as` target exists, the original spelling
becomes the export name. -/
def recordNamedExports (tbl : List (IdE × String)) (md : ModuleDataE)
    (specs : List ExportSpecE) : Except String ModuleDataE :=
  specs.foldlM
    (fun md spec =>
      match spec with
      | .namedE _ orig exported =>
        match orig with
        | .strLit => Except.error "todo: string export name"
        | .ident origI =>
          let identText := origI.sym
          let localName := (lookupId tbl origI.toId).getD identText
          let localNameAsExport : Option String :=
            if identText ≠ localName then some identText else none
          match exported with
          | some (.strLit) => Except.error "todo: string export name"
          | some (.ident exI) =>
            pure (md.pushExport ⟨localName, some exI.sym⟩)
          | none =>
            pure (md.pushExport ⟨localName, localNameAsExport⟩)
      | .namespaceE _ => Except.error "unreachable: namespace specifier without source"
      | .defaultE => Except.error "unreachable: default specifier without source")
    md

/-- One step of the export-recording loop of `analyze_esm_module`.  The
root-module guard is present only on the `ExportDefaultDecl` and
`ExportDecl` arms, exactly as in the source. -/
def exportStep (g : GraphE) (spec : Specifier) (isRoot : Bool)
    (tbl : List (IdE × String)) (c : MDC) (item : VNodeE) :
    Except String MDC :=
  (match item.kind with
      | .importDeclK _ _ _ _ => pure c
      | .exportDefaultDeclK _ _ decl =>
        if isRoot then pure c
        else
          match decl with
          | .tsInterfaceD => pure c
          | .classD maybeIdent =>
            match maybeIdent with
            | some ident =>
              pure (MDC.modify c spec (fun md => md.pushExport
                ⟨(lookupId tbl ident.toId).getD ident.sym, some "default"⟩))
            | none =>
              pure (MDC.modify c spec (fun md => md.pushExport
                ⟨"__pack_default__", some "default"⟩))
          | .fnD maybeIdent =>
            match maybeIdent with
            | some ident =>
              pure (MDC.modify c spec (fun md => md.pushExport
                ⟨(lookupId tbl ident.toId).getD ident.sym, some "default"⟩))
            | none =>
              pure (MDC.modify c spec (fun md => md.pushExport
                ⟨"__pack_default__", some "default"⟩))
      | .exportDefaultExprK _ _ =>
        pure (MDC.modify c spec (fun md => md.pushExport
          ⟨"__pack_default__", some "default"⟩))
      | .exportDeclK _ _ decl =>
        if isRoot then pure c
        else
          match MDC.find? (MDC.modify c spec id) spec with
          | some md =>
            (recordExportDecl md decl).map
              (fun md' => MDC.modify c spec (fun _ => md'))
          | none => Except.error "unreachable: module data missing"
      | .namedExportK _ typeOnly src specs =>
        if typeOnly then pure c
        else
          match src with
          | some srcText =>
            match g.resolveDep srcText spec with
            | some depSpec =>
              let r := MDC.getMutId c depSpec
              match MDC.find? (MDC.modify r.2 spec id) spec with
              | some md =>
                (recordNamedReExports md depSpec r.1 specs).map
                  (fun md' => MDC.modify r.2 spec (fun _ => md'))
              | none => Except.error "unreachable: module data missing"
            | none => Except.error "todo: unresolved re-export dependency"
          | none =>
            match MDC.find? (MDC.modify c spec id) spec with
            | some md =>
              (recordNamedExports tbl md specs).map
                (fun md' => MDC.modify c spec (fun _ => md'))
            | none => Except.error "unreachable: module data missing"
      | .exportAllK _ typeOnly src =>
        if typeOnly then pure c
        else
          match g.resolveDep src spec with
          | some depSpec =>
            let r := MDC.getMutId c depSpec
            pure (MDC.modify r.2 spec (fun md =>
              md.pushReExport ⟨.all, depSpec, r.1⟩))
          | none => Except.error "todo: unresolved export-all dependency"
      | .tsOtherK _ => pure c
      | _ => pure c)

/-- Second loop of `analyze_esm_module`: record `exports`/`re_exports` for
every export form. -/
def analyzePassExports (g : GraphE) (spec : Specifier) (isRoot : Bool)
    (tbl : List (IdE × String)) (body : List VNodeE) (c : MDC) :
    Except String MDC :=
  body.foldlM (exportStep g spec isRoot tbl) c

/-- `analyze_esm_module`: the two analysis passes followed by the tree
rewrite, mutating this module's record (and registering dependency ids) in
the collection. -/
def analyzeEsmModule (g : GraphE) (c : MDC) (spec : Specifier)
    (esm : EsmInfoE) : Except String MDC := do
  let isRoot := g.roots[0]? = some spec
  let (tbl, c, foundTla) ← analyzePassImports g spec esm.body c
  let c := MDC.modify c spec (fun md => { md with hasTla := foundTla })
  let c ← analyzePassExports g spec isRoot tbl esm.body c
  let ctx : CollectCtx := { replaceIds := tbl, src := esm.src, isRoot := isRoot }
  pure (MDC.modify c spec (fun md => collectRun ctx md esm.body))

-- ===========================================================================
-- The emission assembler (`pack`)
-- ===========================================================================

/-- Trim per `str::trim` (ASCII whitespace). -/
def trimChars (cs : List Char) : List Char :=
  ((cs.dropWhile isWs).reverse.dropWhile isWs).reverse

/-- Modelled from the spec: the TextChange Engine
(`deno_ast::apply_text_changes`, an external collaborator not part of this
repository): edits are sorted by range start (ties by range end, which is
what makes an insertion at a position precede a replacement starting there),
then spliced in one pass as
`original[0..r1.start] ++ r1.text ++ original[r1.end..r2.start] ++ ...`;
overlapping ranges are a fatal error. -/
def tcLe (a b : TextChangeE) : Prop :=
  a.start < b.start ∨ (a.start = b.start ∧ a.stop ≤ b.stop)

instance : DecidableRel tcLe := fun a b => by
  unfold tcLe
  infer_instance

/-- Modelled from the spec: one-pass splice of sorted text changes; fails
loudly on overlap (`EditConflict`). -/
def spliceChanges (src : List Char) (sorted : List TextChangeE) :
    Except String (List Char) := do
  let r ← sorted.foldlM
    (fun (st : Nat × List Char) tc =>
      if tc.start < st.1 then
        Except.error "EditConflict: overlapping text changes"
      else
        Except.ok
          (tc.stop, st.2 ++ ((src.drop st.1).take (tc.start - st.1)) ++ tc.newText))
    ((0, []) : Nat × List Char)
  pure (r.2 ++ src.drop r.1)

/-- Modelled from the spec: the TextChange Engine entry point. -/
def applyTextChangesE (src : List Char) (changes : List TextChangeE) :
    Except String (List Char) :=
  spliceChanges src (List.insertionSort tcLe changes)

/-- `get_root_dir::get_folder`: the specifier text up to its last `/`.
(Specifiers are URLs, so a `/` is always present; for an input without one
the source would panic on `unwrap`.) -/
def getFolder (s : String) : String :=
  let cs := s.toList
  let revIdx := cs.reverse.findIdx (· = '/')
  String.mk (cs.take (cs.length - 1 - revIdx))

/-- `get_root_dir`: fold over the file-scheme specifiers, keeping a folder
whenever no root is chosen yet or the current root starts with it; map the
bare `file://` root to `file:///`. -/
def getRootDir (specs : List Specifier) : Option String :=
  let root := specs.foldl
    (fun (root : Option String) s =>
      if s.scheme = "file" then
        let folder := getFolder s.str
        match root with
        | none => some folder
        | some r =>
          if folder.toList.isPrefixOf r.toList then some folder else root
      else root)
    none
  if root = some "file://" then some "file:///" else root

/-- `specifier.strip_prefix(prefix).unwrap_or(specifier)` on the display
path. -/
def stripPre (pre : String) (s : String) : String :=
  if pre.toList.isPrefixOf s.toList then
    String.mk (s.toList.drop pre.toList.length)
  else s

/-- The `displayed_specifier` computation used for the `// <path>` comment
lines (in both the JSON forward-declaration and the module-body sections). -/
def displayedSpec (rootDir : Option String) (s : Specifier) : String :=
  match rootDir with
  | some pre => if s.scheme = "file" then stripPre pre s.str else s.str
  | none => s.str

/-- `PackOptions`. -/
structure PackOptionsE where
  includeRemote : Bool

/-- The analysis phase of `pack`: walk the yielded modules, collect
`ordered_specifiers`, and run `analyze_esm_module` on every ESM module that
is local (or on all of them when remote modules are included).  Any other
module kind is `todo!()`. -/
def packAnalyze (g : GraphE) (options : PackOptionsE) :
    Except String MDC :=
  g.modules.foldlM
    (fun (c : MDC) m =>
      let (spec, gm) := m
      let isFile := spec.scheme = "file"
      match gm with
      | .esm esm =>
        if options.includeRemote || isFile then
          analyzeEsmModule g c spec esm
        else
          pure c
      | .json _ => pure c
      | .other => Except.error "todo: unsupported module kind")
    MDC.empty

/-- One `Object.defineProperty` getter line of the export surface. -/
def defPropLine (code name target : String) : String :=
  "Object.defineProperty(" ++ code ++ ", \"" ++ name ++
    "\", \x7b get: () => " ++ target ++ " \x7d);\n"

/-- The forward-declaration section contribution of one walked module:
remote modules are kept as an `import * as packN from "..."` line; local ESM
modules with a non-empty export surface (except the root) get a namespace
object literal pre-populated with `undefined` per export name; JSON modules
get a namespace object with the raw JSON as the `default` value. -/
def emitFwdOne (ord : List String → List String) (g : GraphE)
    (rootDir : Option String) (st : String × MDC)
    (m : Specifier × GModuleE) : String × MDC :=
  let (finalText, c) := st
  let (spec, gm) := m
  if spec.scheme ≠ "file" then
    let r := MDC.getMutId c spec
    (finalText ++ "import * as " ++ toCodeString r.1 ++ " from \"" ++
      spec.str ++ "\";\n", r.2)
  else
    match gm with
    | .esm _ =>
      let exportNames := MDC.getExportNamesOrd ord c spec
      let r := MDC.getMutId c spec
      if exportNames.isEmpty || g.roots[0]? = some spec then
        (finalText, r.2)
      else
        (finalText ++ "const " ++ toCodeString r.1 ++ " = \x7b\n" ++
          String.join (exportNames.map (fun n => "  " ++ n ++ ": undefined,\n")) ++
          "\x7d;\n", r.2)
    | .json jsonSrc =>
      let r := MDC.getMutId c spec
      let finalText := if finalText ≠ "" then finalText ++ "\n" else finalText
      (finalText ++ "// " ++ displayedSpec rootDir spec ++ "\nconst " ++
        toCodeString r.1 ++ " = \x7b\n  default: " ++
        String.mk (trimChars jsonSrc) ++ "\n\x7d;\n", r.2)
    | .other => (finalText, c)

/-- The export-surface property definitions emitted inside a non-root
module's IIFE: one getter per recorded export, then per `Named`/`Namespace`
re-export, then the expansion of each `All` re-export (skipping names
already defined by the former two groups). -/
def emitProps (ord : List String → List String) (c : MDC) (md : ModuleDataE) :
    String :=
  let code := toCodeString md.id
  let st₁ := md.exports.foldl
    (fun (st : String × List String) e =>
      (st.1 ++ defPropLine code e.exportName e.localName,
       st.2 ++ [e.exportName]))
    ("", [])
  let st₂ := md.reExports.foldl
    (fun (st : String × List String) re =>
      match re.name with
      | .named n =>
        (st.1 ++ defPropLine code n.exportName
          (toCodeString re.moduleId ++ "." ++ n.localName),
         st.2 ++ [n.exportName])
      | .nsName n =>
        (st.1 ++ defPropLine code n (toCodeString re.moduleId ++ "." ++ n),
         st.2 ++ [n])
      | .all => st)
    st₁
  md.reExports.foldl
    (fun (txt : String) re =>
      match re.name with
      | .all =>
        (MDC.getExportNamesOrd ord c re.specifier).foldl
          (fun txt n =>
            if n ∈ st₂.2 then txt
            else txt ++ defPropLine code n (toCodeString re.moduleId ++ "." ++ n))
          txt
      | _ => txt)
    st₂.1

/-- The body-section contribution of one ESM module: apply its text changes,
transpile if required, trim; skip the module when the patched text and the
export surface are all empty; otherwise emit the `// path` comment and then
either the bare body (root) or the IIFE-wrapped body followed by the export
property definitions. -/
def emitEsmBody (ord : List String → List String) (g : GraphE) (c : MDC)
    (rootDir : Option String) (transpileF : List Char → List Char)
    (finalText : String) (spec : Specifier) (esm : EsmInfoE) :
    Except String String :=
  match MDC.find? c spec with
  | none => Except.error "unwrap: module data missing"
  | some md => do
    let patched ← applyTextChangesE esm.src md.textChanges
    let patched := if md.requiresTranspile then transpileF patched else patched
    let moduleText := trimChars patched
    if moduleText = [] ∧ md.exports = [] ∧ md.reExports = [] then
      pure finalText
    else
      let finalText := if finalText ≠ "" then finalText ++ "\n" else finalText
      let finalText := finalText ++ "// " ++ displayedSpec rootDir spec ++ "\n"
      if g.roots[0]? = some spec then
        pure (finalText ++ String.mk moduleText ++ "\n")
      else
        let finalText := finalText ++
          (if md.hasTla then "await (async () => \x7b\n" else "(() => \x7b\n")
        let finalText :=
          if moduleText ≠ [] then finalText ++ String.mk moduleText ++ "\n"
          else finalText
        pure (finalText ++ emitProps ord c md ++ "\x7d)();\n")

/-- The body section of `pack`: walk the ordered modules in reverse,
skipping remote modules when they are not included, and emit every ESM
module's body. -/
def packEmit (ord : List String → List String) (g : GraphE)
    (options : PackOptionsE) (transpileF : List Char → List Char) (c : MDC)
    (rootDir : Option String) (fwdText : String) : Except String String :=
  g.modules.reverse.foldlM
    (fun (finalText : String) m =>
      let (spec, gm) := m
      if !options.includeRemote && spec.scheme ≠ "file" then
        pure finalText
      else
        match gm with
        | .esm esm => emitEsmBody ord g c rootDir transpileF finalText spec esm
        | .json _ => pure finalText
        | .other => pure finalText)
    fwdText

/-- `pack`, parameterized by the `HashSet` iteration order `ord` (see
`MDC.getExportNamesOrd`) and the external transpile collaborator
`transpileF` (`emit_script`).  Fails (as the source panics) unless exactly
one root is declared, before any analysis or emission. -/
def packOrd (ord : List String → List String) (g : GraphE)
    (options : PackOptionsE) (transpileF : List Char → List Char) :
    Except String String := do
  if g.roots.length ≠ 1 then
    Except.error "assertion failed: roots.len() == 1"
  else
    let c ← packAnalyze g options
    let rootDir := getRootDir (g.modules.map Prod.fst)
    let st := g.modules.foldl (emitFwdOne ord g rootDir) ("", c)
    packEmit ord g options transpileF st.2 rootDir st.1

/-- `pack` with the identity iteration order: the canonical embedding. -/
def packE (g : GraphE) (options : PackOptionsE)
    (transpileF : List Char → List Char) : Except String String :=
  packOrd id g options transpileF

-- ===========================================================================
-- Concrete scenario: named vs. namespace import (C8)
-- ===========================================================================

/-- `file:///mod.ts`. -/
def modSpec : Specifier := ⟨"file", "file:///mod.ts"⟩

/-- `file:///logger.ts`. -/
def loggerSpec : Specifier := ⟨"file", "file:///logger.ts"⟩

/-- Source of `logger.ts`:
`export const logger = 1;` / `export class Logger {}`. -/
def loggerSrc : List Char :=
  "export const logger = 1;\nexport class Logger \x7b\x7d\n".toList

/-- Parsed view of `logger.ts` (scope-analysis context 1 for its own
top-level bindings). -/
def loggerInfo : EsmInfoE :=
  { src := loggerSrc
    body :=
      [.mk (.exportDeclK ⟨0, 24⟩ 7 (.varD false [.identP "logger"]))
        [.mk (.varDeclK ⟨7, 24⟩ false)
          [.mk (.passK ⟨13, 23⟩)
            [.mk (.passK ⟨13, 19⟩) [.mk (.identK ⟨13, 19⟩ "logger" 1) []],
             .mk (.passK ⟨22, 23⟩) []]]],
       .mk (.exportDeclK ⟨25, 47⟩ 32 (.classD false ⟨"Logger", 1⟩))
        [.mk (.passK ⟨32, 47⟩)
          [.mk (.identK ⟨38, 44⟩ "Logger" 1) [],
           .mk (.passK ⟨32, 47⟩) []]]] }

/-- Source of the named-import variant of `mod.ts`:
`import { logger, Logger } from "./logger.ts";` /
`console.log(logger, new Logger());`. -/
def modNamedSrc : List Char :=
  "import \x7b logger, Logger \x7d from \"./logger.ts\";\nconsole.log(logger, new Logger());\n".toList

/-- Parsed view of the named-import variant (context 7 = `mod.ts` top-level
mark; context 99 = unresolved references; context 0 = member property
names, untouched by scope analysis). -/
def modNamedInfo : EsmInfoE :=
  { src := modNamedSrc
    body :=
      [.mk (.importDeclK ⟨0, 45⟩ false "./logger.ts"
          [.namedS false ⟨"logger", 7⟩ none, .namedS false ⟨"Logger", 7⟩ none]) [],
       .mk (.passK ⟨46, 80⟩)
        [.mk (.passK ⟨46, 79⟩)
          [.mk (.passK ⟨46, 57⟩)
            [.mk (.identK ⟨46, 53⟩ "console" 99) [],
             .mk (.identK ⟨54, 57⟩ "log" 0) []],
           .mk (.identK ⟨58, 64⟩ "logger" 7) [],
           .mk (.passK ⟨66, 78⟩)
            [.mk (.identK ⟨70, 76⟩ "Logger" 7) []]]]] }

/-- Source of the namespace-import variant of `mod.ts`:
`import * as logger from "./logger.ts";` /
`console.log(logger.logger, new logger.Logger());`. -/
def modNsSrc : List Char :=
  "import * as logger from \"./logger.ts\";\nconsole.log(logger.logger, new logger.Logger());\n".toList

/-- Parsed view of the namespace-import variant. -/
def modNsInfo : EsmInfoE :=
  { src := modNsSrc
    body :=
      [.mk (.importDeclK ⟨0, 38⟩ false "./logger.ts"
          [.namespaceS ⟨"logger", 7⟩]) [],
       .mk (.passK ⟨39, 87⟩)
        [.mk (.passK ⟨39, 85⟩)
          [.mk (.passK ⟨39, 50⟩)
            [.mk (.identK ⟨39, 46⟩ "console" 99) [],
             .mk (.identK ⟨47, 50⟩ "log" 0) []],
           .mk (.passK ⟨51, 64⟩)
            [.mk (.identK ⟨51, 57⟩ "logger" 7) [],
             .mk (.identK ⟨58, 64⟩ "logger" 0) []],
           .mk (.passK ⟨66, 83⟩)
            [.mk (.passK ⟨70, 83⟩)
              [.mk (.identK ⟨70, 76⟩ "logger" 7) [],
               .mk (.identK ⟨77, 83⟩ "Logger" 0) []]]]]] }

/-- The resolver of the two-module program. -/
def c8Resolve : String → Specifier → Option Specifier :=
  fun srcText _ => if srcText = "./logger.ts" then some loggerSpec else none

/-- The graph of the named-import variant. -/
def c8GraphNamed : GraphE :=
  { roots := [modSpec]
    modules := [(modSpec, .esm modNamedInfo), (loggerSpec, .esm loggerInfo)]
    resolveDep := c8Resolve }

/-- The graph of the namespace-import variant. -/
def c8GraphNs : GraphE :=
  { roots := [modSpec]
    modules := [(modSpec, .esm modNsInfo), (loggerSpec, .esm loggerInfo)]
    resolveDep := c8Resolve }

instance {ε α : Type} [DecidableEq ε] [DecidableEq α] :
    DecidableEq (Except ε α) := fun a b =>
  match a, b with
  | .ok x, .ok y =>
    if h : x = y then .isTrue (congrArg Except.ok h)
    else .isFalse (fun he => h (Except.ok.inj he))
  | .error x, .error y =>
    if h : x = y then .isTrue (congrArg Except.error h)
    else .isFalse (fun he => h (Except.error.inj he))
  | .ok _, .error _ => .isFalse (fun he => Except.noConfusion he)
  | .error _, .ok _ => .isFalse (fun he => Except.noConfusion he)

/-- The packed output both variants produce. -/
def c8Expected : String :=
  "const pack0 = \x7b\n  Logger: undefined,\n  logger: undefined,\n\x7d;\n\n" ++
  "// logger.ts\n(() => \x7b\nconst logger = 1;\nclass Logger \x7b\x7d\n" ++
  "Object.defineProperty(pack0, \"logger\", \x7b get: () => logger \x7d);\n" ++
  "Object.defineProperty(pack0, \"Logger\", \x7b get: () => Logger \x7d);\n" ++
  "\x7d)();\n\n// mod.ts\nconsole.log(pack0.logger, new pack0.Logger());\n"

set_option maxRecDepth 100000 in
/-- C8: packing the same two-module program written once with the
named-import form (`import { logger, Logger } from './logger.ts'`) and once
with the namespace form (`import * as logger from './logger.ts'`, call
sites qualified) produces identical output: both binding forms rewrite
each use site to `pack0.<name>` and both import declarations are deleted in
full. -/
theorem c8_named_namespace_equiv :
    packE c8GraphNamed ⟨false⟩ id = Except.ok c8Expected ∧
    packE c8GraphNs ⟨false⟩ id = Except.ok c8Expected ∧
    packE c8GraphNamed ⟨false⟩ id = packE c8GraphNs ⟨false⟩ id := by
  refine ⟨by decide, by decide, ?_⟩
  decide

-- ===========================================================================
-- Concrete scenario: the five default-export forms (C5)
-- ===========================================================================

def c5aSpec : Specifier := ⟨"file", "file:///a.ts"⟩
def c5bSpec : Specifier := ⟨"file", "file:///b.ts"⟩
def c5cSpec : Specifier := ⟨"file", "file:///c.ts"⟩
def c5dSpec : Specifier := ⟨"file", "file:///d.ts"⟩
def c5eSpec : Specifier := ⟨"file", "file:///e.ts"⟩

/-- `a.ts`: `export default interface A {` / `}` (type-only default). -/
def c5aInfo : EsmInfoE :=
  { src := "export default interface A \x7b\n\x7d\n".toList
    body := [.mk (.exportDefaultDeclK ⟨0, 30⟩ 15 .tsInterfaceD) []] }

/-- `b.ts`: `export default class B {}` (named class default). -/
def c5bInfo : EsmInfoE :=
  { src := "export default class B \x7b\x7d\n".toList
    body :=
      [.mk (.exportDefaultDeclK ⟨0, 25⟩ 15 (.classD (some ⟨"B", 1⟩)))
        [.mk (.passK ⟨15, 25⟩)
          [.mk (.identK ⟨21, 22⟩ "B" 1) [], .mk (.passK ⟨15, 25⟩) []]]] }

/-- `c.ts`: `export default class {}` (anonymous class default). -/
def c5cInfo : EsmInfoE :=
  { src := "export default class \x7b\x7d\n".toList
    body :=
      [.mk (.exportDefaultDeclK ⟨0, 23⟩ 15 (.classD none))
        [.mk (.passK ⟨15, 23⟩) []]] }

/-- `d.ts`: `export default function d() {}` (named function default). -/
def c5dInfo : EsmInfoE :=
  { src := "export default function d() \x7b\x7d\n".toList
    body :=
      [.mk (.exportDefaultDeclK ⟨0, 30⟩ 15 (.fnD (some ⟨"d", 1⟩)))
        [.mk (.fnExprK ⟨15, 30⟩) [.mk (.identK ⟨24, 25⟩ "d" 1) []]]] }

/-- `e.ts`: `export default function() {}` (anonymous function default). -/
def c5eInfo : EsmInfoE :=
  { src := "export default function() \x7b\x7d\n".toList
    body :=
      [.mk (.exportDefaultDeclK ⟨0, 28⟩ 15 (.fnD none))
        [.mk (.fnExprK ⟨15, 28⟩) []]] }

/-- One `console.log(DefaultN);` statement of the root, at offset `s` with
the identifier at `[s+12, s+20)`. -/
def c5LogStmt (s : Nat) (name : String) : VNodeE :=
  .mk (.passK ⟨s, s + 22⟩)
    [.mk (.passK ⟨s, s + 21⟩)
      [.mk (.passK ⟨s, s + 11⟩)
        [.mk (.identK ⟨s, s + 7⟩ "console" 99) [],
         .mk (.identK ⟨s + 8, s + 11⟩ "log" 0) []],
       .mk (.identK ⟨s + 12, s + 20⟩ name 7) []]]

/-- The root `mod.ts`: five default imports, then `console.log` of the
second through fifth (the interface default is imported but unused). -/
def c5ModInfo : EsmInfoE :=
  { src :=
      ("import Default1 from \"./a.ts\";\nimport Default2 from \"./b.ts\";\n" ++
       "import Default3 from \"./c.ts\";\nimport Default4 from \"./d.ts\";\n" ++
       "import Default5 from \"./e.ts\";\n" ++
       "console.log(Default2);\nconsole.log(Default3);\n" ++
       "console.log(Default4);\nconsole.log(Default5);\n").toList
    body :=
      [.mk (.importDeclK ⟨0, 30⟩ false "./a.ts" [.defaultS ⟨"Default1", 7⟩]) [],
       .mk (.importDeclK ⟨31, 61⟩ false "./b.ts" [.defaultS ⟨"Default2", 7⟩]) [],
       .mk (.importDeclK ⟨62, 92⟩ false "./c.ts" [.defaultS ⟨"Default3", 7⟩]) [],
       .mk (.importDeclK ⟨93, 123⟩ false "./d.ts" [.defaultS ⟨"Default4", 7⟩]) [],
       .mk (.importDeclK ⟨124, 154⟩ false "./e.ts" [.defaultS ⟨"Default5", 7⟩]) [],
       c5LogStmt 155 "Default2",
       c5LogStmt 178 "Default3",
       c5LogStmt 201 "Default4",
       c5LogStmt 224 "Default5"] }

def c5Resolve : String → Specifier → Option Specifier := fun srcText _ =>
  if srcText = "./a.ts" then some c5aSpec
  else if srcText = "./b.ts" then some c5bSpec
  else if srcText = "./c.ts" then some c5cSpec
  else if srcText = "./d.ts" then some c5dSpec
  else if srcText = "./e.ts" then some c5eSpec
  else none

def c5Graph : GraphE :=
  { roots := [modSpec]
    modules :=
      [(modSpec, .esm c5ModInfo), (c5aSpec, .esm c5aInfo),
       (c5bSpec, .esm c5bInfo), (c5cSpec, .esm c5cInfo),
       (c5dSpec, .esm c5dInfo), (c5eSpec, .esm c5eInfo)]
    resolveDep := c5Resolve }

/-- C5 counterexample: on the claim's own five-module scenario, the named
class default of `b.ts` is recorded with `local_name = "B"`, not
`"__pack_default__"`, so it is not true that every default-export form
records an `ExportName` whose `local_name` is `"__pack_default__"`. -/
theorem c5_counterexample :
    (packAnalyze c5Graph ⟨false⟩).map
        (fun c => (MDC.find? c c5bSpec).map ModuleDataE.exports) =
      Except.ok (some [⟨"B", some "default"⟩]) ∧
    "B" ≠ "__pack_default__" := by
  constructor
  · decide
  · decide

/-- The packed output of the five-default-forms scenario. -/
def c5Expected : String :=
  "const pack1 = \x7b\n  default: undefined,\n\x7d;\n" ++
  "const pack2 = \x7b\n  default: undefined,\n\x7d;\n" ++
  "const pack3 = \x7b\n  default: undefined,\n\x7d;\n" ++
  "const pack4 = \x7b\n  default: undefined,\n\x7d;\n\n" ++
  "// e.ts\n(() => \x7b\nconst __pack_default__ = function() \x7b\x7d\n" ++
  "Object.defineProperty(pack4, \"default\", \x7b get: () => __pack_default__ \x7d);\n\x7d)();\n\n" ++
  "// d.ts\n(() => \x7b\nfunction d() \x7b\x7d\n" ++
  "Object.defineProperty(pack3, \"default\", \x7b get: () => d \x7d);\n\x7d)();\n\n" ++
  "// c.ts\n(() => \x7b\nconst __pack_default__ = class \x7b\x7d\n" ++
  "Object.defineProperty(pack2, \"default\", \x7b get: () => __pack_default__ \x7d);\n\x7d)();\n\n" ++
  "// b.ts\n(() => \x7b\nclass B \x7b\x7d\n" ++
  "Object.defineProperty(pack1, \"default\", \x7b get: () => B \x7d);\n\x7d)();\n\n" ++
  "// mod.ts\nconsole.log(pack1.default);\nconsole.log(pack2.default);\n" ++
  "console.log(pack3.default);\nconsole.log(pack4.default);\n"

set_option maxRecDepth 400000 in
/-- C5 (amended): in the five-default-forms scenario, the anonymous class,
the anonymous function and (in general) default-export expressions are
bound to `__pack_default__`; a *named* default class or function is bound
under export name `"default"` to its own identifier; and the type-only
interface default records no export at all and produces no namespace-object
entry (no `pack0` object appears in the output at all).  The whole packed
output is as expected. -/
theorem c5_default_forms :
    (packAnalyze c5Graph ⟨false⟩).map (fun c =>
      [(MDC.find? c c5aSpec).map ModuleDataE.exports,
       (MDC.find? c c5bSpec).map ModuleDataE.exports,
       (MDC.find? c c5cSpec).map ModuleDataE.exports,
       (MDC.find? c c5dSpec).map ModuleDataE.exports,
       (MDC.find? c c5eSpec).map ModuleDataE.exports]) =
      Except.ok
        [some [],
         some [⟨"B", some "default"⟩],
         some [⟨"__pack_default__", some "default"⟩],
         some [⟨"d", some "default"⟩],
         some [⟨"__pack_default__", some "default"⟩]] ∧
    (packAnalyze c5Graph ⟨false⟩).map
        (fun c => MDC.getExportNames c c5aSpec) = Except.ok [] ∧
    packE c5Graph ⟨false⟩ id = Except.ok c5Expected := by
  refine ⟨by decide, by decide, by decide⟩

-- ===========================================================================
-- C1: root-module export bookkeeping
-- ===========================================================================

/-- The recorded exports of a specifier (empty when unregistered). -/
def exportsOf (c : MDC) (s : Specifier) : List ExportNameE :=
  ((MDC.find? c s).map ModuleDataE.exports).getD []

/-- The recorded re-exports of a specifier (empty when unregistered). -/
def reExportsOf (c : MDC) (s : Specifier) : List ReExportE :=
  ((MDC.find? c s).map ModuleDataE.reExports).getD []

/-- `get_mut` on any key never changes the recorded exports/re-exports of
any specifier: at worst it appends a fresh record with empty lists. -/
theorem exportsOf_getMut (c : MDC) (k q : Specifier) :
    exportsOf (MDC.getMutId c k).2 q = exportsOf c q ∧
    reExportsOf (MDC.getMutId c k).2 q = reExportsOf c q := by
  unfold MDC.getMutId
  cases hf : c.find? k with
  | some md => exact ⟨rfl, rfl⟩
  | none =>
    cases hq : c.find? q with
    | some mdq =>
      have h : MDC.find? (c ++ [(k, ModuleDataE.fresh c.length)]) q = some mdq := by
        rw [@MDC.find?_append_left c _ _ (by simp [hq]), hq]
      constructor <;> simp [exportsOf, reExportsOf, h, hq]
    | none =>
      by_cases hkq : k = q
      · subst hkq
        have h : MDC.find? (c ++ [(k, ModuleDataE.fresh c.length)]) k =
            some (ModuleDataE.fresh c.length) := by
          rw [MDC.find?_append_right hq, MDC.find?_singleton, if_pos rfl]
        simp only [ModuleDataE.fresh] at h
        constructor <;> simp [exportsOf, reExportsOf, h, hq, ModuleDataE.fresh]
      · have h : MDC.find? (c ++ [(k, ModuleDataE.fresh c.length)]) q = none := by
          rw [MDC.find?_append_right hq, MDC.find?_singleton, if_neg hkq]
        constructor <;> simp [exportsOf, reExportsOf, h, hq]

theorem MDC.find?_map_entry (c : MDC) (g : ModuleDataE → ModuleDataE)
    (k q : Specifier) :
    MDC.find? (c.map (fun kv => if kv.1 = k then (kv.1, g kv.2) else kv)) q =
      (MDC.find? c q).map (fun v => if q = k then g v else v) := by
  induction c with
  | nil => simp [MDC.find?]
  | cons kv rest ih =>
    obtain ⟨kk, vv⟩ := kv
    rw [List.map_cons]
    by_cases h2 : kk = k
    · subst h2
      rw [show (if (kk, vv).1 = kk then ((kk, vv).1, g (kk, vv).2) else (kk, vv)) =
          (kk, g vv) by simp]
      by_cases h1 : kk = q
      · subst h1
        simp [MDC.find?]
      · simp [MDC.find?, h1, ih]
    · rw [show (if (kk, vv).1 = k then ((kk, vv).1, g (kk, vv).2) else (kk, vv)) =
          (kk, vv) by simp [h2]]
      by_cases h1 : kk = q
      · subst h1
        simp [MDC.find?, h2, Ne.symm h2]
      · simp [MDC.find?, h1, ih]

/-- `MDC.modify` with a function preserving exports and re-exports
preserves `exportsOf`/`reExportsOf` at every specifier. -/
theorem exportsOf_modify (c : MDC) (k q : Specifier)
    (f : ModuleDataE → ModuleDataE)
    (hf : ∀ md, (f md).exports = md.exports ∧ (f md).reExports = md.reExports) :
    exportsOf (MDC.modify c k f) q = exportsOf c q ∧
    reExportsOf (MDC.modify c k f) q = reExportsOf c q := by
  unfold MDC.modify
  rw [show (MDC.getMutId c k).2.map
        (fun kv => if kv.1 = k then (kv.1, f kv.2) else kv) =
      (MDC.getMutId c k).2.map
        (fun kv => if kv.1 = k then (kv.1, f kv.2) else kv) from rfl]
  have hbase := exportsOf_getMut c k q
  constructor
  · rw [← hbase.1]
    unfold exportsOf
    rw [MDC.find?_map_entry]
    cases hfind : MDC.find? (MDC.getMutId c k).2 q with
    | none => simp
    | some md =>
      by_cases hq : q = k
      · simp [hq, (hf md).1]
      · simp [hq]
  · rw [← hbase.2]
    unfold reExportsOf
    rw [MDC.find?_map_entry]
    cases hfind : MDC.find? (MDC.getMutId c k).2 q with
    | none => simp
    | some md =>
      by_cases hq : q = k
      · simp [hq, (hf md).2]
      · simp [hq]

/-- One import step touches the registry only through `get_mut`, so it
records no exports or re-exports anywhere. -/
theorem importStep_keeps (g : GraphE) (spec : Specifier)
    (st : List (IdE × String) × MDC × Bool) (item : VNodeE)
    (res : List (IdE × String) × MDC × Bool) (q : Specifier)
    (h : importStep g spec st item = Except.ok res) :
    exportsOf res.2.1 q = exportsOf st.2.1 q ∧
    reExportsOf res.2.1 q = reExportsOf st.2.1 q := by
  obtain ⟨tbl, c, foundTla⟩ := st
  cases hk : item.kind with
  | importDeclK sp typeOnly src specs =>
    by_cases hto : typeOnly = true
    · subst hto
      simp only [importStep, hk, if_true] at h
      simp only [pure, Except.pure, Except.ok.injEq] at h
      subst h
      exact ⟨rfl, rfl⟩
    · have hto' : typeOnly = false := by simpa using hto
      subst hto'
      simp only [importStep, hk, Bool.false_eq_true, if_false] at h
      cases hres : g.resolveDep src spec with
      | some depSpec =>
        simp only [hres] at h
        cases htbl : importSpecifiersIntoTable (MDC.getMutId c depSpec).1 specs tbl with
        | error e =>
          simp only [htbl, Except.map] at h
          exact Except.noConfusion h
        | ok tbl' =>
          simp only [htbl, Except.map, Except.ok.injEq] at h
          subst h
          exact exportsOf_getMut c depSpec q
      | none => simp only [hres] at h; cases h
  | namedExportK sp tOnly src specs =>
    simp only [importStep, hk, pure, Except.pure, Except.ok.injEq] at h
    subst h; exact ⟨rfl, rfl⟩
  | exportAllK sp tOnly src =>
    simp only [importStep, hk, pure, Except.pure, Except.ok.injEq] at h
    subst h; exact ⟨rfl, rfl⟩
  | exportDeclK sp ae d =>
    simp only [importStep, hk, pure, Except.pure, Except.ok.injEq] at h
    subst h; exact ⟨rfl, rfl⟩
  | exportDefaultDeclK sp ad d =>
    simp only [importStep, hk, pure, Except.pure, Except.ok.injEq] at h
    subst h; exact ⟨rfl, rfl⟩
  | exportDefaultExprK sp ad =>
    simp only [importStep, hk, pure, Except.pure, Except.ok.injEq] at h
    subst h; exact ⟨rfl, rfl⟩
  | tsOtherK sp =>
    simp only [importStep, hk, pure, Except.pure, Except.ok.injEq] at h
    subst h; exact ⟨rfl, rfl⟩
  | identK sp sym ctxt =>
    simp only [importStep, hk] at h
    split at h <;>
      (simp only [pure, Except.pure, Except.ok.injEq] at h; subst h; exact ⟨rfl, rfl⟩)
  | objectLitK sp =>
    simp only [importStep, hk] at h
    split at h <;>
      (simp only [pure, Except.pure, Except.ok.injEq] at h; subst h; exact ⟨rfl, rfl⟩)
  | passK sp =>
    simp only [importStep, hk] at h
    split at h <;>
      (simp only [pure, Except.pure, Except.ok.injEq] at h; subst h; exact ⟨rfl, rfl⟩)
  | fnExprK sp =>
    simp only [importStep, hk] at h
    split at h <;>
      (simp only [pure, Except.pure, Except.ok.injEq] at h; subst h; exact ⟨rfl, rfl⟩)
  | arrowK sp =>
    simp only [importStep, hk] at h
    split at h <;>
      (simp only [pure, Except.pure, Except.ok.injEq] at h; subst h; exact ⟨rfl, rfl⟩)
  | classMethodK sp hb =>
    simp only [importStep, hk] at h
    split at h <;>
      (simp only [pure, Except.pure, Except.ok.injEq] at h; subst h; exact ⟨rfl, rfl⟩)
  | fnDeclK sp hb =>
    simp only [importStep, hk] at h
    split at h <;>
      (simp only [pure, Except.pure, Except.ok.injEq] at h; subst h; exact ⟨rfl, rfl⟩)
  | awaitK sp =>
    simp only [importStep, hk] at h
    split at h <;>
      (simp only [pure, Except.pure, Except.ok.injEq] at h; subst h; exact ⟨rfl, rfl⟩)
  | varDeclK sp dc =>
    simp only [importStep, hk] at h
    split at h <;>
      (simp only [pure, Except.pure, Except.ok.injEq] at h; subst h; exact ⟨rfl, rfl⟩)
  | tsTypeK sp =>
    simp only [importStep, hk] at h
    split at h <;>
      (simp only [pure, Except.pure, Except.ok.injEq] at h; subst h; exact ⟨rfl, rfl⟩)

theorem exceptBind_ok {α β ε : Type} (a : α) (f : α → Except ε β) :
    (Except.ok a >>= f) = f a := rfl

theorem exceptBind_error {α β ε : Type} (e : ε) (f : α → Except ε β) :
    ((Except.error e : Except ε α) >>= f) = (Except.error e : Except ε β) := rfl

/-- The whole import-resolution loop records no exports or re-exports. -/
theorem analyzePassImports_keeps (g : GraphE) (spec : Specifier) :
    ∀ (body : List VNodeE) (st res : List (IdE × String) × MDC × Bool)
      (q : Specifier),
      body.foldlM (importStep g spec) st = Except.ok res →
      exportsOf res.2.1 q = exportsOf st.2.1 q ∧
      reExportsOf res.2.1 q = reExportsOf st.2.1 q := by
  intro body
  induction body with
  | nil =>
    intro st res q h
    simp only [List.foldlM_nil] at h
    cases h
    exact ⟨rfl, rfl⟩
  | cons item rest ih =>
    intro st res q h
    rw [List.foldlM_cons] at h
    cases hstep : importStep g spec st item with
    | error e =>
      rw [hstep, exceptBind_error] at h
      exact Except.noConfusion h
    | ok st' =>
      rw [hstep, exceptBind_ok] at h
      have h₁ := importStep_keeps g spec st item st' q hstep
      have h₂ := ih st' res q h
      exact ⟨h₂.1.trans h₁.1, h₂.2.trans h₁.2⟩

/-- The export forms on which the export-recording loop either has a
root-module guard (`ExportDefaultDecl`, `ExportDecl`) or records nothing
at all.  `ExportDefaultExpr`, non-type-only `ExportNamed` and non-type-only
`ExportAll` are NOT guarded in the source. -/
def rootGuardedKind : VKindE → Bool
  | .exportDefaultExprK _ _ => false
  | .namedExportK _ typeOnly _ _ => typeOnly
  | .exportAllK _ typeOnly _ => typeOnly
  | _ => true

/-- On a root module, an export step over a root-guarded item leaves the
collection untouched. -/
theorem exportStep_root_guarded (g : GraphE) (spec : Specifier)
    (tbl : List (IdE × String)) (c : MDC) (item : VNodeE)
    (hg : rootGuardedKind item.kind = true) :
    exportStep g spec true tbl c item = Except.ok c := by
  cases hk : item.kind <;>
    rw [hk] at hg <;>
    simp only [rootGuardedKind] at hg <;>
    first
      | exact absurd hg (by decide)
      | simp [exportStep, hk, hg, pure, Except.pure]

/-- On a root module whose items are all root-guarded, the whole
export-recording loop leaves the collection untouched. -/
theorem analyzePassExports_root_guarded (g : GraphE) (spec : Specifier)
    (tbl : List (IdE × String)) :
    ∀ (body : List VNodeE) (c : MDC),
      (∀ item ∈ body, rootGuardedKind item.kind = true) →
      analyzePassExports g spec true tbl body c = Except.ok c := by
  intro body
  induction body with
  | nil => intro c _; rfl
  | cons item rest ih =>
    intro c hall
    unfold analyzePassExports
    rw [List.foldlM_cons,
        exportStep_root_guarded g spec tbl c item (hall item (by simp)),
        exceptBind_ok]
    exact ih c (fun it hit => hall it (by simp [hit]))

/-- `file:///root.ts`, entry root of the C1 counterexample graph. -/
def c1Spec : Specifier := ⟨"file", "file:///root.ts"⟩

/-- `export default 5;` as the root's whole module body. -/
def c1Esm : EsmInfoE :=
  { src := "export default 5;".toList,
    body := [.mk (.exportDefaultExprK ⟨0, 17⟩ 14) []] }

/-- Single-module graph whose root is `c1Spec`. -/
def c1Graph : GraphE :=
  { roots := [c1Spec],
    modules := [(c1Spec, .esm c1Esm)],
    resolveDep := fun _ _ => none }

/-- Refutation of the unamended claim: analyzing the graph's entry root
containing `export default 5;` (an `ExportDefaultExpr`) DOES record export
bookkeeping — the root's `exports` list ends up holding
`("__pack_default__", "default")`, not empty, because the
`ExportDefaultExpr` arm of `analyze_esm_module` has no root-module guard. -/
theorem c1_counterexample :
    (analyzeEsmModule c1Graph MDC.empty c1Spec c1Esm).map
        (fun c => exportsOf c c1Spec) =
      Except.ok [⟨"__pack_default__", some "default"⟩] := by decide

/-- C1 (amended).  The root-module exception holds for the guarded export
forms only: if every top-level item of the entry root is root-guarded
(export declarations, export default declarations, type-only named/star
exports and non-export statements), then a successful `analyze_esm_module`
run records no export bookkeeping for the root — its `exports` and
`re_exports` are exactly what they were before the call (so empty when the
root was freshly registered).  The unguarded forms (`export default
<expr>`, non-type-only `export { .. }` and `export * from`) are excluded:
they DO record bookkeeping even on the root, refuting the universal claim
(see the counterexample). -/
theorem c1_root_export_bookkeeping (g : GraphE) (c : MDC) (spec : Specifier)
    (esm : EsmInfoE) (c' : MDC)
    (hroot : g.roots[0]? = some spec)
    (hbody : ∀ item ∈ esm.body, rootGuardedKind item.kind = true)
    (h : analyzeEsmModule g c spec esm = Except.ok c') :
    exportsOf c' spec = exportsOf c spec ∧
    reExportsOf c' spec = reExportsOf c spec := by
  unfold analyzeEsmModule at h
  cases hi : analyzePassImports g spec esm.body c with
  | error e =>
    rw [hi, exceptBind_error] at h
    exact Except.noConfusion h
  | ok st =>
    obtain ⟨tbl, c₁, foundTla⟩ := st
    simp only [hi, exceptBind_ok] at h
    rw [decide_eq_true hroot] at h
    rw [analyzePassExports_root_guarded g spec tbl esm.body
          (MDC.modify c₁ spec (fun md => { md with hasTla := foundTla })) hbody,
        exceptBind_ok] at h
    obtain rfl := Except.ok.inj h
    have h1 := exportsOf_modify
      (MDC.modify c₁ spec (fun md => { md with hasTla := foundTla })) spec spec
      (fun md => collectRun
        { replaceIds := tbl, src := esm.src, isRoot := true } md esm.body)
      (fun _ => ⟨rfl, rfl⟩)
    have h2 := exportsOf_modify c₁ spec spec
      (fun md => { md with hasTla := foundTla }) (fun _ => ⟨rfl, rfl⟩)
    have h3 := analyzePassImports_keeps g spec esm.body ([], c, false)
      (tbl, c₁, foundTla) spec hi
    exact ⟨(h1.1.trans h2.1).trans h3.1, (h1.2.trans h2.2).trans h3.2⟩

/-- `file:///rootw.ts`: root for the C1 witness. -/
def c1WSpec : Specifier := ⟨"file", "file:///rootw.ts"⟩

/-- `export class A {}` — a root-guarded export-declaration body. -/
def c1WEsm : EsmInfoE :=
  { src := "export class A {}".toList,
    body := [.mk (.exportDeclK ⟨0, 17⟩ 7 (.classD false ⟨"A", 0⟩)) []] }

/-- Single-module graph rooted at `c1WSpec`. -/
def c1WGraph : GraphE :=
  { roots := [c1WSpec],
    modules := [(c1WSpec, .esm c1WEsm)],
    resolveDep := fun _ _ => none }

/-- The collection produced by analyzing the witness root. -/
def c1WOut : MDC :=
  [(c1WSpec, { id := 0, hasTla := false, exports := [], reExports := [],
               textChanges := [], requiresTranspile := false })]

theorem c1_root_export_bookkeeping_witness :
    c1WGraph.roots[0]? = some c1WSpec ∧
    (∀ item ∈ c1WEsm.body, rootGuardedKind item.kind = true) ∧
    analyzeEsmModule c1WGraph MDC.empty c1WSpec c1WEsm = Except.ok c1WOut ∧
    (exportsOf c1WOut c1WSpec = exportsOf MDC.empty c1WSpec ∧
     reExportsOf c1WOut c1WSpec = reExportsOf MDC.empty c1WSpec) :=
  ⟨by decide, by decide, by decide,
   c1_root_export_bookkeeping c1WGraph MDC.empty c1WSpec c1WEsm c1WOut
     (by decide) (by decide) (by decide)⟩

-- ===========================================================================
-- C2: text-change non-overlap invariant
-- ===========================================================================

/-- Two half-open byte ranges overlap. -/
def rangesOverlap (a b : TextChangeE) : Bool :=
  a.start < b.stop && b.start < a.stop

/-- Some pair of distinct entries in the list has overlapping ranges. -/
def hasOverlappingPair : List TextChangeE → Bool
  | [] => false
  | t :: rest => rest.any (fun u => rangesOverlap t u) || hasOverlappingPair rest

/-- `file:///main.ts`, the entry root of the C2 graph (so the module under
test is NOT the root). -/
def c2RootSpec : Specifier := ⟨"file", "file:///main.ts"⟩

/-- `file:///dep.ts`, the non-root module under test. -/
def c2Spec : Specifier := ⟨"file", "file:///dep.ts"⟩

/-- `export declare var x: number;` — an exported ambient `var`
declaration.  The `ExportDecl` arm removes the `export` keyword
(bytes `[0, 7)`), then visits the child `VarDecl`, whose `declare` branch
removes the declaration together with the preceding whitespace
(bytes `[6, 29)`). -/
def c2Esm : EsmInfoE :=
  { src := "export declare var x: number;".toList,
    body := [.mk (.exportDeclK ⟨0, 29⟩ 7 (.varD true [.identP "x"]))
                [.mk (.varDeclK ⟨7, 29⟩ true) []]] }

/-- Graph with root `c2RootSpec` and non-root module `c2Spec`. -/
def c2Graph : GraphE :=
  { roots := [c2RootSpec],
    modules := [(c2RootSpec, .esm ⟨[], []⟩), (c2Spec, .esm c2Esm)],
    resolveDep := fun _ _ => none }

/-- C2 (refuted: analyzer bug).  `analyze_esm_module` on the non-root
module `export declare var x: number;` succeeds and records the two text
changes `[0, 7)` and `[6, 29)`, whose byte ranges overlap at byte 6; the
text-change engine consequently fails with an edit conflict on
analyzer-generated output, violating the stated invariant. -/
theorem c2_non_overlap_invariant :
    (analyzeEsmModule c2Graph MDC.empty c2Spec c2Esm).map
        (fun c => (MDC.find? c c2Spec).map ModuleDataE.textChanges) =
      Except.ok (some [⟨0, 7, []⟩, ⟨6, 29, []⟩]) ∧
    hasOverlappingPair [⟨0, 7, []⟩, ⟨6, 29, []⟩] = true ∧
    applyTextChangesE c2Esm.src [⟨0, 7, []⟩, ⟨6, 29, []⟩] =
      Except.error "EditConflict: overlapping text changes" := by
  refine ⟨by decide, by decide, by decide⟩

-- ===========================================================================
-- C9: single-root precondition
-- ===========================================================================

/-- C9.  `pack` requires exactly one declared root: whenever the graph's
roots sequence does not have length 1, the call fails fatally (the
`assert_eq!(graph.roots.len(), 1)` panic, modelled as an error) for every
iteration order, option set and transpile function, before any analysis or
emission output is produced. -/
theorem c9_single_root_precondition (ord : List String → List String)
    (g : GraphE) (options : PackOptionsE) (transpileF : List Char → List Char)
    (h : g.roots.length ≠ 1) :
    packOrd ord g options transpileF =
      Except.error "assertion failed: roots.len() == 1" := by
  unfold packOrd
  rw [if_pos h]

/-- Two-root graph exercising the C9 precondition. -/
def c9Graph : GraphE :=
  { roots := [⟨"file", "file:///a.ts"⟩, ⟨"file", "file:///b.ts"⟩],
    modules := [],
    resolveDep := fun _ _ => none }

theorem c9_single_root_precondition_witness :
    c9Graph.roots.length ≠ 1 ∧
    packOrd id c9Graph ⟨false⟩ id =
      Except.error "assertion failed: roots.len() == 1" :=
  ⟨by decide, c9_single_root_precondition id c9Graph ⟨false⟩ id (by decide)⟩

-- ===========================================================================
-- C6: deterministic re-run (iteration-order independence)
-- ===========================================================================

theorem getExportNamesOrd_id (c : MDC) (s : Specifier) :
    MDC.getExportNamesOrd id c s = MDC.getExportNames c s := rfl

theorem emitProps_ordEq (ord : List String → List String)
    (h : ∀ l, List.Perm (ord l) l) (c : MDC) (md : ModuleDataE) :
    emitProps ord c md = emitProps id c md := by
  unfold emitProps
  simp only [getExportNamesOrd_eq_of_perm ord h, getExportNamesOrd_id]

theorem emitEsmBody_ordEq (ord : List String → List String)
    (h : ∀ l, List.Perm (ord l) l) (g : GraphE) (c : MDC)
    (rootDir : Option String) (transpileF : List Char → List Char)
    (finalText : String) (spec : Specifier) (esm : EsmInfoE) :
    emitEsmBody ord g c rootDir transpileF finalText spec esm =
      emitEsmBody id g c rootDir transpileF finalText spec esm := by
  unfold emitEsmBody
  cases hfind : MDC.find? c spec with
  | none => rfl
  | some md => simp only [emitProps_ordEq ord h]

theorem emitFwdOne_ordEq (ord : List String → List String)
    (h : ∀ l, List.Perm (ord l) l) (g : GraphE) (rootDir : Option String)
    (st : String × MDC) (m : Specifier × GModuleE) :
    emitFwdOne ord g rootDir st m = emitFwdOne id g rootDir st m := by
  obtain ⟨finalText, c⟩ := st
  obtain ⟨spec, gm⟩ := m
  cases gm <;>
    simp only [emitFwdOne, getExportNamesOrd_eq_of_perm ord h,
      getExportNamesOrd_id]

theorem packEmit_ordEq (ord : List String → List String)
    (h : ∀ l, List.Perm (ord l) l) (g : GraphE) (options : PackOptionsE)
    (transpileF : List Char → List Char) (c : MDC)
    (rootDir : Option String) (fwdText : String) :
    packEmit ord g options transpileF c rootDir fwdText =
      packEmit id g options transpileF c rootDir fwdText := by
  unfold packEmit
  simp only [emitEsmBody_ordEq ord h]

/-- C6.  `pack` is deterministic: the only internal iteration over an
unordered container (the `HashSet` of gathered export names) is neutralized
by the `sort_unstable` that follows it, so for ANY two hash-iteration
orders (arbitrary permutations of the gathered names) the packed output is
byte-identical — re-running `pack` on the same graph with the same options
and transpiler yields the same text. -/
theorem c6_deterministic_rerun (ord₁ ord₂ : List String → List String)
    (h₁ : ∀ l, List.Perm (ord₁ l) l) (h₂ : ∀ l, List.Perm (ord₂ l) l)
    (g : GraphE) (options : PackOptionsE)
    (transpileF : List Char → List Char) :
    packOrd ord₁ g options transpileF = packOrd ord₂ g options transpileF := by
  have key : ∀ (ord : List String → List String), (∀ l, List.Perm (ord l) l) →
      packOrd ord g options transpileF = packOrd id g options transpileF := by
    intro ord h
    unfold packOrd
    have hf : emitFwdOne ord g = emitFwdOne id g := by
      funext rootDir st m
      exact emitFwdOne_ordEq ord h g rootDir st m
    simp only [hf, packEmit_ordEq ord h]
  exact (key ord₁ h₁).trans (key ord₂ h₂).symm

theorem c6_deterministic_rerun_witness :
    packOrd List.reverse c8GraphNamed ⟨false⟩ id =
      packOrd id c8GraphNamed ⟨false⟩ id :=
  c6_deterministic_rerun List.reverse id
    (fun l => List.reverse_perm l) (fun l => List.Perm.refl l)
    c8GraphNamed ⟨false⟩ id

-- ===========================================================================
-- C4: body-emission shape
-- ===========================================================================

/-- C4.  Shape of the per-module body emission: given the module's record
and its successfully patched source, (a) when the module is the root its
trimmed patched body is appended verbatim and unwrapped; (b) when it is not
the root, the body is wrapped in `await (async () => \x7b ... \x7d)();`
exactly when `has_tla` is set and in a plain `(() => \x7b ... \x7d)();`
otherwise, with the getter-based `Object.defineProperty` export surface
(`emitProps`) emitted inside the wrapper right before it closes. -/
theorem c4_emission_shape (g : GraphE) (c : MDC) (rootDir : Option String)
    (transpileF : List Char → List Char) (finalText : String)
    (spec : Specifier) (esm : EsmInfoE) (md : ModuleDataE)
    (patched body : List Char) (pre : String)
    (hfind : MDC.find? c spec = some md)
    (hp : applyTextChangesE esm.src md.textChanges = Except.ok patched)
    (hbody : body =
      trimChars (if md.requiresTranspile then transpileF patched else patched))
    (hpre : pre = (if finalText ≠ "" then finalText ++ "\n" else finalText) ++
      "// " ++ displayedSpec rootDir spec ++ "\n")
    (hskip : ¬(body = [] ∧ md.exports = [] ∧ md.reExports = [])) :
    (g.roots[0]? = some spec →
       emitEsmBody id g c rootDir transpileF finalText spec esm =
         Except.ok (pre ++ String.mk body ++ "\n")) ∧
    (¬(g.roots[0]? = some spec) →
       emitEsmBody id g c rootDir transpileF finalText spec esm =
         Except.ok ((if body ≠ [] then
              pre ++ (if md.hasTla then "await (async () => \x7b\n"
                      else "(() => \x7b\n") ++ String.mk body ++ "\n"
            else
              pre ++ (if md.hasTla then "await (async () => \x7b\n"
                      else "(() => \x7b\n")) ++
           emitProps id c md ++ "\x7d)();\n")) := by
  subst hbody
  subst hpre
  constructor <;> intro hroot
  · simp only [emitEsmBody, hfind, hp, exceptBind_ok]
    rw [if_neg hskip, if_pos hroot]
    rfl
  · simp only [emitEsmBody, hfind, hp, exceptBind_ok]
    rw [if_neg hskip, if_neg hroot]
    rfl

/-- Non-root module record for the C4 witness run (a TLA module with one
export). -/
def c4Spec : Specifier := ⟨"file", "file:///x.ts"⟩

def c4Md : ModuleDataE :=
  { id := 0, hasTla := true, exports := [⟨"a", none⟩], reExports := [],
    textChanges := [], requiresTranspile := false }

def c4C : MDC := [(c4Spec, c4Md)]

def c4Esm : EsmInfoE := ⟨"const a = 1;".toList, []⟩

def c4Graph : GraphE :=
  ⟨[⟨"file", "file:///r.ts"⟩], [], fun _ _ => none⟩

theorem c4_emission_shape_witness :
    MDC.find? c4C c4Spec = some c4Md ∧
    applyTextChangesE c4Esm.src c4Md.textChanges =
      Except.ok "const a = 1;".toList ∧
    ¬(c4Graph.roots[0]? = some c4Spec) ∧
    emitEsmBody id c4Graph c4C none id "" c4Spec c4Esm =
      Except.ok ((if "const a = 1;".toList ≠ ([] : List Char) then
            "// file:///x.ts\n" ++
              (if c4Md.hasTla then "await (async () => \x7b\n"
               else "(() => \x7b\n") ++ String.mk "const a = 1;".toList ++ "\n"
          else
            "// file:///x.ts\n" ++
              (if c4Md.hasTla then "await (async () => \x7b\n"
               else "(() => \x7b\n")) ++
        emitProps id c4C c4Md ++ "\x7d)();\n") :=
  ⟨by decide, by decide, by decide,
   (c4_emission_shape c4Graph c4C none id "" c4Spec c4Esm c4Md
      "const a = 1;".toList "const a = 1;".toList "// file:///x.ts\n"
      (by decide) (by decide) (by decide) (by decide) (by decide)).2
     (by decide)⟩

-- ===========================================================================
-- C10: sorted, duplicate-free export surface in forward declarations
-- ===========================================================================

/-- C10.  For every collection and specifier, `get_export_names` returns a
list that is strictly ascending in code-point lexicographic order (hence
duplicate-free), and the forward-declaration section emits the `undefined`
placeholders of a non-root file-scheme ESM module's namespace-object
literal exactly by mapping over that sorted list — so placeholders appear
in sorted name order, not declaration or recording order. -/
theorem c10_sorted_forward_decls (c : MDC) (s : Specifier) :
    List.Pairwise (fun a b => strLeR a b ∧ a ≠ b) (MDC.getExportNames c s) ∧
    (MDC.getExportNames c s).Nodup ∧
    (∀ (g : GraphE) (rootDir : Option String) (finalText : String)
       (esm : EsmInfoE),
       s.scheme = "file" →
       ¬(MDC.getExportNames c s).isEmpty = true →
       ¬(g.roots[0]? = some s) →
       emitFwdOne id g rootDir (finalText, c) (s, .esm esm) =
         (finalText ++ "const " ++ toCodeString (MDC.getMutId c s).1 ++
            " = \x7b\n" ++
            String.join ((MDC.getExportNames c s).map
              (fun n => "  " ++ n ++ ": undefined,\n")) ++
            "\x7d;\n",
          (MDC.getMutId c s).2)) := by
  refine ⟨getExportNames_sorted_lt c s, getExportNames_nodup c s, ?_⟩
  intro g rootDir finalText esm hscheme hne hroot
  simp only [emitFwdOne]
  rw [if_neg (fun hc => hc hscheme)]
  rw [if_neg (by simp only [MDC.getExportNames] at hne ⊢; simp [hne, hroot])]
  rfl

/-- Module with its exports deliberately recorded out of order
(`b` before `a`), to witness the sorting. -/
def c10Spec : Specifier := ⟨"file", "file:///sorted.ts"⟩

def c10C : MDC :=
  [(c10Spec, { id := 0, hasTla := false,
               exports := [⟨"b", none⟩, ⟨"a", none⟩], reExports := [],
               textChanges := [], requiresTranspile := false })]

def c10Esm : EsmInfoE := ⟨[], []⟩

def c10Graph : GraphE :=
  ⟨[⟨"file", "file:///r.ts"⟩], [], fun _ _ => none⟩

theorem c10_sorted_forward_decls_witness :
    List.Pairwise (fun a b => strLeR a b ∧ a ≠ b)
      (MDC.getExportNames c10C c10Spec) ∧
    (MDC.getExportNames c10C c10Spec).Nodup ∧
    emitFwdOne id c10Graph none ("", c10C) (c10Spec, .esm c10Esm) =
      ("" ++ "const " ++ toCodeString (MDC.getMutId c10C c10Spec).1 ++
         " = \x7b\n" ++
         String.join ((MDC.getExportNames c10C c10Spec).map
           (fun n => "  " ++ n ++ ": undefined,\n")) ++
         "\x7d;\n",
       (MDC.getMutId c10C c10Spec).2) :=
  ⟨(c10_sorted_forward_decls c10C c10Spec).1,
   (c10_sorted_forward_decls c10C c10Spec).2.1,
   (c10_sorted_forward_decls c10C c10Spec).2.2 c10Graph none "" c10Esm
     (by decide) (by decide) (by decide)⟩
